import Mathlib

/-!
Shallow embedding of the lvSHP sprite editor core (Rust sources
`src/shp.rs`, `src/app.rs`, `src/color_match.rs`) and proofs about it.

Bytes are modelled as `Nat` values below 256; machine-integer casts and
saturating/wrapping arithmetic are made explicit with `%`/`min` at the
places the Rust code performs them.  Fallible reads return `Except`.
-/

namespace LvShp

/-- Error taxonomy of the codec.  Each constructor mirrors one distinct
error produced by the Rust source (`src/shp.rs`):
`headerTooShort` is the string for a buffer shorter than 8 bytes;
`notASprite` the string for a nonzero 16-bit marker;
`invalidDimensions` the string for a zero width, height or frame count;
`offsetOutOfRange` the string for a frame data offset at or past the
buffer end; `truncated` any io error from a failed `read_exact`
(short read); `emptySprite` the string `save` returns with no frames. -/
inductive ShpError where
  | headerTooShort
  | notASprite
  | invalidDimensions
  | offsetOutOfRange
  | truncated
  | emptySprite
  deriving DecidableEq, Repr

/-- One animation frame: a flat row-major buffer of palette indices
(struct `Frame`, field `pixels : Vec<u8>`). -/
structure Frame where
  pixels : List Nat
  deriving DecidableEq, Repr

/-- In-memory sprite: canvas size plus ordered frames (struct `SHP`). -/
structure SHP where
  width : Nat
  height : Nat
  frames : List Frame
  deriving DecidableEq, Repr

/-- Blank-canvas constructor (`SHP::new`): all frames zero-filled. -/
def SHP.new (width height frames : Nat) : SHP :=
  ⟨width, height, List.replicate frames ⟨List.replicate (width * height) 0⟩⟩

/-- `read_u16` in `SHP::load`: two little-endian bytes at cursor `pos`. -/
def readU16 (bytes : List Nat) (pos : Nat) : Except ShpError (Nat × Nat) :=
  match bytes.drop pos with
  | b0 :: b1 :: _ => .ok (b0 + 256 * b1, pos + 2)
  | _ => .error .truncated

/-- `read_u32` in `SHP::load`: four little-endian bytes.  Also used to
model `read_i32`, whose value the loader ignores. -/
def readU32 (bytes : List Nat) (pos : Nat) : Except ShpError (Nat × Nat) :=
  match bytes.drop pos with
  | b0 :: b1 :: b2 :: b3 :: _ =>
      .ok (b0 + 256 * b1 + 65536 * b2 + 16777216 * b3, pos + 4)
  | _ => .error .truncated

/-- `read_exact` of `n` bytes at `pos`. -/
def readExact (bytes : List Nat) (pos n : Nat) : Except ShpError (List Nat × Nat) :=
  if pos + n ≤ bytes.length then .ok ((bytes.drop pos).take n, pos + n)
  else .error .truncated

/-- Transient per-frame header (local struct `FHeader` in `SHP::load`). -/
structure FHeader where
  x : Nat
  y : Nat
  w : Nat
  h : Nat
  flags : Nat
  dataOff : Nat
  deriving DecidableEq, Repr

/-- Read one 24-byte frame header: x, y, w, h (u16 each), flags (u32),
four ignored color bytes, one ignored i32, data offset (u32). -/
def readFHeader (bytes : List Nat) (pos : Nat) : Except ShpError (FHeader × Nat) := do
  let (x, p1) ← readU16 bytes pos
  let (y, p2) ← readU16 bytes p1
  let (w, p3) ← readU16 bytes p2
  let (h, p4) ← readU16 bytes p3
  let (flags, p5) ← readU32 bytes p4
  let (_, p6) ← readExact bytes p5 4
  let (_, p7) ← readU32 bytes p6
  let (off, p8) ← readU32 bytes p7
  pure (⟨x, y, w, h, flags, off⟩, p8)

/-- Read `count` consecutive 24-byte frame headers. -/
def readFHeaders (bytes : List Nat) : Nat → Nat → Except ShpError (List FHeader × Nat)
  | 0, pos => .ok ([], pos)
  | k + 1, pos => do
      let (fh, p1) ← readFHeader bytes pos
      let (fhs, p2) ← readFHeaders bytes k p1
      pure (fh :: fhs, p2)

/-- RLE0 inner row scan (`while remaining > 0` loop in `SHP::load`).
State: cursor `pos` into `slice`, declared bytes `rem` still to consume,
row cursor `xAbs`, canvas buffer `px`.  A nonzero byte is a literal pixel
(bounds-checked write, row cursor advances by one); a zero byte is
followed by a count of background pixels to skip (`saturating_add` on the
usize row cursor is the `min` with `2 ^ 64 - 1`).  The second decrement of
`remaining` wraps around at zero exactly as release-mode usize subtraction
does.  The loop consumes at least one byte of `slice` per iteration, so
with `fuel` at least `slice.length + 1 - pos` the fuel-exhaustion branch
is reached only when the cursor is already past the end of `slice`, where
the Rust read fails with the same truncation error. -/
def rle0Scan (slice : List Nat) (w h yAbs : Nat) :
    Nat → Nat → Nat → Nat → List Nat → Except ShpError (List Nat × Nat)
  | _, pos, 0, _, px => .ok (px, pos)
  | 0, _, _ + 1, _, _ => .error .truncated
  | fuel + 1, pos, rem + 1, xAbs, px =>
    match slice.drop pos with
    | [] => .error .truncated
    | v :: _ =>
      if v ≠ 0 then
        rle0Scan slice w h yAbs fuel (pos + 1) rem (xAbs + 1)
          (if xAbs < w ∧ yAbs < h then px.set (yAbs * w + xAbs) v else px)
      else
        match slice.drop (pos + 1) with
        | [] => .error .truncated
        | c :: _ =>
          rle0Scan slice w h yAbs fuel (pos + 2)
            (if rem = 0 then 2 ^ 64 - 1 else rem - 1)
            (min (xAbs + c) (2 ^ 64 - 1)) px

/-- Scanline inner row scan: every declared byte is a literal pixel. -/
def scanRow (slice : List Nat) (w h yAbs : Nat) :
    Nat → Nat → Nat → List Nat → Except ShpError (List Nat × Nat)
  | pos, 0, _, px => .ok (px, pos)
  | pos, rem + 1, xAbs, px =>
    match slice.drop pos with
    | [] => .error .truncated
    | v :: _ =>
      scanRow slice w h yAbs (pos + 1) rem (xAbs + 1)
        (if xAbs < w ∧ yAbs < h then px.set (yAbs * w + xAbs) v else px)

/-- RLE0 frame body: `fh.h` rows, each a u16 length (inclusive of itself,
`saturating_sub 2` is Nat subtraction) followed by its scan. -/
def rle0Rows (slice : List Nat) (w h fhx : Nat) :
    Nat → Nat → Nat → List Nat → Except ShpError (List Nat)
  | _, 0, _, px => .ok px
  | pos, rows + 1, yAbs, px => do
      let (len, p1) ← readU16 slice pos
      let (px1, p2) ← rle0Scan slice w h yAbs (slice.length + 1) p1 (len - 2) fhx px
      rle0Rows slice w h fhx p2 rows (yAbs + 1) px1

/-- Scanline frame body: `fh.h` length-prefixed literal rows. -/
def scanRows (slice : List Nat) (w h fhx : Nat) :
    Nat → Nat → Nat → List Nat → Except ShpError (List Nat)
  | _, 0, _, px => .ok px
  | pos, rows + 1, yAbs, px => do
      let (len, p1) ← readU16 slice pos
      let (px1, p2) ← scanRow slice w h yAbs p1 (len - 2) fhx px
      scanRows slice w h fhx p2 rows (yAbs + 1) px1

/-- Place one raw row into the canvas with per-pixel bounds checks
(the `for v in row` loop of the uncompressed branch). -/
def writeRow (w h yAbs : Nat) : List Nat → Nat → List Nat → List Nat
  | [], _, px => px
  | v :: rest, xAbs, px =>
      writeRow w h yAbs rest (xAbs + 1)
        (if xAbs < w ∧ yAbs < h then px.set (yAbs * w + xAbs) v else px)

/-- Uncompressed frame body: `fh.h` raw rows of `fh.w` bytes each. -/
def uncompRows (slice : List Nat) (w h fhx fhw : Nat) :
    Nat → Nat → Nat → List Nat → Except ShpError (List Nat)
  | _, 0, _, px => .ok px
  | pos, rows + 1, yAbs, px => do
      let (row, p1) ← readExact slice pos fhw
      uncompRows slice w h fhx fhw p1 rows (yAbs + 1) (writeRow w h yAbs row fhx px)

/-- Decode one frame into a full-canvas buffer (frame loop of `SHP::load`):
offset 0 or an empty subrect means a fully background frame; an offset at
or past the buffer end is an error; otherwise the compression scheme is
selected by the two lowest flag bits. -/
def decodeFrame (bytes : List Nat) (w h : Nat) (fh : FHeader) :
    Except ShpError (List Nat) :=
  let px0 := List.replicate (w * h) 0
  if fh.dataOff = 0 ∨ fh.w = 0 ∨ fh.h = 0 then .ok px0
  else if fh.dataOff ≥ bytes.length then .error .offsetOutOfRange
  else
    let slice := bytes.drop fh.dataOff
    if fh.flags &&& 3 = 3 then rle0Rows slice w h fh.x 0 fh.h fh.y px0
    else if fh.flags &&& 2 = 2 ∧ fh.flags &&& 1 = 0 then
      scanRows slice w h fh.x 0 fh.h fh.y px0
    else uncompRows slice w h fh.x fh.w 0 fh.h fh.y px0

/-- Decode every frame in header order. -/
def decodeFrames (bytes : List Nat) (w h : Nat) : List FHeader → Except ShpError (List Frame)
  | [] => .ok []
  | fh :: rest => do
      let px ← decodeFrame bytes w h fh
      let fs ← decodeFrames bytes w h rest
      pure (⟨px⟩ :: fs)

/-- `SHP::load`: header checks, frame headers, frame data. -/
def SHP.load (bytes : List Nat) : Except ShpError SHP :=
  if bytes.length < 8 then .error .headerTooShort
  else do
    let (marker, p1) ← readU16 bytes 0
    if marker ≠ 0 then throw .notASprite
    let (w, p2) ← readU16 bytes p1
    let (h, p3) ← readU16 bytes p2
    let (n, p4) ← readU16 bytes p3
    if w = 0 ∨ h = 0 ∨ n = 0 then throw .invalidDimensions
    let (fhs, _) ← readFHeaders bytes n p4
    let frames ← decodeFrames bytes w h fhs
    pure ⟨w, h, frames⟩

/-- Little-endian bytes of `(v as u16)` (cast then `to_le_bytes`). -/
def u16le (v : Nat) : List Nat := [v % 256, v / 256 % 256]

/-- Little-endian bytes of a u32 value (exact for `v < 2 ^ 32`). -/
def u32le (v : Nat) : List Nat :=
  [v % 256, v / 256 % 256, v / 65536 % 256, v / 16777216 % 256]

/-- Full-canvas raw block copied from a frame (the nested y/x copy loops
of `SHP::save`).  The Rust indexing is in bounds whenever
`pixels.length = w * h` (the Sprite invariant); `getD` gives the
impossible out-of-bounds read a default. -/
def frameBlock (w h : Nat) (pixels : List Nat) : List Nat :=
  (List.range h).flatMap fun y => (List.range w).map fun x => pixels.getD (y * w + x) 0

/-- Running-cursor data offsets of `SHP::save`: an all-zero block keeps
offset 0 and emits no bytes; any other block takes the current u32 cursor,
which then advances by the block length with saturating u32 addition
(the `as u32` cast of the usize length is the inner `%`). -/
def computeOffsets : List (List Nat) → Nat → List Nat
  | [], _ => []
  | blk :: rest, cursor =>
    if blk.all (· = 0) then 0 :: computeOffsets rest cursor
    else cursor :: computeOffsets rest (min (cursor + blk.length % 4294967296) 4294967295)

/-- One 24-byte output frame header: origin (0,0), full canvas size,
flags 0, zeroed color and reserved fields, then the data offset. -/
def fhBytes (w h off : Nat) : List Nat :=
  u16le 0 ++ u16le 0 ++ u16le w ++ u16le h ++ u32le 0 ++ [0, 0, 0, 0] ++ u32le 0 ++ u32le off

/-- The byte buffer `SHP::save` produces once past its empty-frames guard:
8-byte header, one 24-byte header per frame, then the data blocks of the
non-empty frames in order. -/
def saveBytes (s : SHP) : List Nat :=
  let n := s.frames.length
  let blocks := s.frames.map fun f => frameBlock s.width s.height f.pixels
  let offs := computeOffsets blocks ((8 + 24 * n) % 4294967296)
  u16le 0 ++ u16le s.width ++ u16le s.height ++ u16le n
    ++ (offs.flatMap fun off => fhBytes s.width s.height off)
    ++ ((blocks.zip offs).flatMap fun p => if p.2 = 0 then [] else p.1)

/-- `SHP::save`: fails on an empty frame list, else emits `saveBytes`. -/
def SHP.save (s : SHP) : Except ShpError (List Nat) :=
  if s.frames.isEmpty then .error .emptySprite else .ok (saveBytes s)

instance {ε α : Type} [DecidableEq ε] [DecidableEq α] : DecidableEq (Except ε α) := fun x y =>
  match x, y with
  | .ok a, .ok b =>
      if h : a = b then .isTrue (by rw [h]) else .isFalse (by intro hc; cases hc; exact h rfl)
  | .error a, .error b =>
      if h : a = b then .isTrue (by rw [h]) else .isFalse (by intro hc; cases hc; exact h rfl)
  | .ok _, .error _ => .isFalse (by intro hc; cases hc)
  | .error _, .ok _ => .isFalse (by intro hc; cases hc)

/-! ## Color quantizer (`src/color_match.rs`) -/

/-- A true color (`egui::Color32` restricted to its r, g, b channels,
each a byte). -/
structure Rgb where
  r : Nat
  g : Nat
  b : Nat
  deriving DecidableEq, Repr

/-- `dist_rgb2`: squared Euclidean RGB distance.  The Rust i32 arithmetic
never overflows for byte channels, so the `as u32` cast of the
nonnegative sum is the `toNat`. -/
def dist_rgb2 (a b : Rgb) : Nat :=
  (((a.r : Int) - b.r) * ((a.r : Int) - b.r) + ((a.g : Int) - b.g) * ((a.g : Int) - b.g)
    + ((a.b : Int) - b.b) * ((a.b : Int) - b.b)).toNat

/-- The `for i in 0..256` loop of `best_index_rgb`, with the remaining
iteration count `k` made explicit (`k + i = 256` at every call): keep the
first index attaining the least distance seen so far, stop early on an
exact match.  `4294967295` is the `u32::MAX` the best distance starts at. -/
def bestLoop (c : Rgb) (palette : List Rgb) : Nat → Nat → Nat → Nat → Nat
  | 0, _, best, _ => best
  | k + 1, i, best, bestD =>
    let d := dist_rgb2 c (palette.getD i ⟨0, 0, 0⟩)
    if d < bestD then
      if d = 0 then i else bestLoop c palette k (i + 1) i d
    else bestLoop c palette k (i + 1) best bestD

/-- `best_index_rgb`: nearest palette index for a color (palette has 256
entries; indexing in the loop is in bounds for such palettes). -/
def best_index_rgb (c : Rgb) (palette : List Rgb) : Nat :=
  bestLoop c palette 256 0 0 4294967295

/-! ## Raster operations and edit history (`src/app.rs`) -/

/-- Overwrite frame `fi`'s buffer wholesale (field update on
`shp.frames[fi]`). -/
def setFramePixels (shp : SHP) (fi : Nat) (px : List Nat) : SHP :=
  ⟨shp.width, shp.height, shp.frames.set fi ⟨px⟩⟩

/-- `MixApp::frame_set_pixel`: bounds-checked single write; any
out-of-canvas coordinate or bad frame index is a silent no-op.  The final
buffer write is in bounds under the Sprite invariant; `List.set` gives
the impossible out-of-bounds write a no-op. -/
def frame_set_pixel (shp : SHP) (fi : Nat) (x y : Int) (color : Nat) : SHP :=
  if fi ≥ shp.frames.length then shp
  else if x < 0 ∨ y < 0 then shp
  else if x.toNat ≥ shp.width ∨ y.toNat ≥ shp.height then shp
  else
    setFramePixels shp fi
      (((shp.frames.getD fi ⟨[]⟩).pixels).set (y.toNat * shp.width + x.toNat) color)

/-- `MixApp::frame_get_pixel`: bounds-checked single read; out of range
reads return 0. -/
def frame_get_pixel (shp : SHP) (fi : Nat) (x y : Int) : Nat :=
  if x < 0 ∨ y < 0 then 0
  else if fi ≥ shp.frames.length ∨ x.toNat ≥ shp.width ∨ y.toNat ≥ shp.height then 0
  else (shp.frames.getD fi ⟨[]⟩).pixels.getD (y.toNat * shp.width + x.toNat) 0

/-- `SHP::set_pixel` (`src/shp.rs`): the u32-coordinate variant. -/
def SHP.set_pixel (s : SHP) (frame : Nat) (x y : Nat) (index : Nat) : SHP :=
  if frame ≥ s.frames.length then s
  else if x ≥ s.width ∨ y ≥ s.height then s
  else setFramePixels s frame (((s.frames.getD frame ⟨[]⟩).pixels).set (y * s.width + x) index)

/-- In-bounds `getD` is `get`. -/
theorem getD_of_lt {α : Type} (l : List α) (i : Nat) (d : α) (hi : i < l.length) :
    l.getD i d = l.get ⟨i, hi⟩ := by
  simp [List.getD_eq_getElem?_getD, List.getElem?_eq_getElem hi]

/-- Setting one list entry to a value different from `target` at a
position currently holding `target` strictly decreases the number of
`target` entries. -/
theorem count_set_lt (l : List Nat) (i target v : Nat) (hi : i < l.length)
    (hl : l.getD i 0 = target) (hv : v ≠ target) :
    (l.set i v).count target < l.count target := by
  have hset := List.set_eq_take_cons_drop v hi
  have hget : l.get ⟨i, hi⟩ = target := by rw [← getD_of_lt l i 0 hi]; exact hl
  have hsplit : l = l.take i ++ l.get ⟨i, hi⟩ :: l.drop (i + 1) := by
    conv_lhs => rw [(List.take_append_drop i l).symm]
    rw [List.drop_eq_getElem_cons hi, List.get_eq_getElem]
  have h1 : (l.set i v).count target
      = (l.take i).count target + (l.drop (i + 1)).count target := by
    rw [hset]
    simp [List.count_append, List.count_cons, hv]
  have hsplit2 : l = l.take i ++ target :: l.drop (i + 1) := by rw [← hget]; exact hsplit
  have h2 : l.count target
      = (l.take i).count target + (l.drop (i + 1)).count target + 1 := by
    conv_lhs => rw [hsplit2]
    rw [List.count_append, List.count_cons_self]
    omega
  omega

/-- A bounds-checked cell lands inside a `w * h` row-major buffer. -/
theorem cell_index_lt (w h : Nat) (cx cy : Int)
    (hout : ¬(cx < 0 ∨ cy < 0 ∨ (w : Int) ≤ cx ∨ (h : Int) ≤ cy)) :
    cy.toNat * w + cx.toNat < w * h := by
  have hbx : cx.toNat < w := by omega
  have hby : cy.toNat < h := by omega
  calc cy.toNat * w + cx.toNat < cy.toNat * w + w := by omega
    _ = (cy.toNat + 1) * w := by ring
    _ ≤ h * w := Nat.mul_le_mul_right w hby
    _ = w * h := Nat.mul_comm h w

/-- The canvas-level flood-fill loop (`while let Some((px,py)) =
stack.pop()` in `MixApp::flood_fill_on_frame`), acting on one frame's
buffer.  The Lean list head is the top of the Rust stack, so the four
neighbor pushes appear in reverse push order.  The buffer-length
invariant (always true for a Sprite frame) and the guard
`target ≠ newColor` (established before the loop starts) make every
repaint strictly decrease the number of `target` pixels, which bounds
the traversal. -/
def floodLoop (w h target newColor : Nat) (hne : target ≠ newColor) :
    List (Int × Int) → (px : List Nat) → px.length = w * h → List Nat
  | [], px, _ => px
  | (cx, cy) :: rest, px, hlen =>
    if cx < 0 ∨ cy < 0 ∨ (w : Int) ≤ cx ∨ (h : Int) ≤ cy then
      floodLoop w h target newColor hne rest px hlen
    else if px.getD (cy.toNat * w + cx.toNat) 0 ≠ target then
      floodLoop w h target newColor hne rest px hlen
    else
      floodLoop w h target newColor hne
        ((cx, cy + 1) :: (cx, cy - 1) :: (cx + 1, cy) :: (cx - 1, cy) :: rest)
        (px.set (cy.toNat * w + cx.toNat) newColor) (by simpa using hlen)
termination_by stack px _ => (px.count target, stack.length)
decreasing_by
  · apply Prod.Lex.right
    simp
  · apply Prod.Lex.right
    simp
  · apply Prod.Lex.left
    rename_i hin htgt
    apply count_set_lt
    · rw [hlen]
      exact cell_index_lt w h cx cy hin
    · omega
    · exact fun hc => hne hc.symm

/-- Canvas-level pixel read, mirroring `frame_get_pixel` for an in-range
frame index. -/
def getPixelCanvas (w h : Nat) (px : List Nat) (x y : Int) : Nat :=
  if x < 0 ∨ y < 0 then 0
  else if x.toNat ≥ w ∨ y.toNat ≥ h then 0
  else px.getD (y.toNat * w + x.toNat) 0

/-- `MixApp::flood_fill_on_frame` restricted to one frame's buffer:
capture the seed color as target, return unchanged if it already equals
the new color, else run the explicit-stack traversal from the seed. -/
def floodFillCanvas (w h : Nat) (x y : Int) (newColor : Nat) (px : List Nat)
    (hlen : px.length = w * h) : List Nat :=
  if hne : getPixelCanvas w h px x y = newColor then px
  else floodLoop w h (getPixelCanvas w h px x y) newColor hne [(x, y)] px hlen

/-- `MixApp::flood_fill_on_frame`: bad frame index is a no-op, else the
frame's buffer is flood-filled in place. -/
def flood_fill_on_frame (shp : SHP) (fi : Nat) (x y : Int) (newColor : Nat)
    (hinv : ∀ f, f ∈ shp.frames → f.pixels.length = shp.width * shp.height) : SHP :=
  if hfi : fi ≥ shp.frames.length then shp
  else
    setFramePixels shp fi
      (floodFillCanvas shp.width shp.height x y newColor
        (shp.frames.get ⟨fi, by omega⟩).pixels
        (hinv _ (shp.frames.get_mem _ _)))

/-- Step-counted version of the flood-fill loop: the same body, returning
`none` when the step budget runs out.  Used to state that the iterative
traversal terminates. -/
def floodLoopFuel (w h target newColor : Nat) :
    Nat → List (Int × Int) → List Nat → Option (List Nat)
  | 0, _, _ => none
  | _ + 1, [], px => some px
  | fuel + 1, (cx, cy) :: rest, px =>
    if cx < 0 ∨ cy < 0 ∨ (w : Int) ≤ cx ∨ (h : Int) ≤ cy then
      floodLoopFuel w h target newColor fuel rest px
    else if px.getD (cy.toNat * w + cx.toNat) 0 ≠ target then
      floodLoopFuel w h target newColor fuel rest px
    else
      floodLoopFuel w h target newColor fuel
        ((cx, cy + 1) :: (cx, cy - 1) :: (cx + 1, cy) :: (cx - 1, cy) :: rest)
        (px.set (cy.toNat * w + cx.toNat) newColor)

/-! ## Editor session state: undo/redo with frame anchor (`MixApp`) -/

/-- The fields of `MixApp` the edit history reads and writes
(`preview.current_frame` is `currentFrame`). -/
structure EditorState where
  shp : Option SHP
  currentFrame : Nat
  undoStack : List (List Nat)
  redoStack : List (List Nat)
  maxUndoSteps : Nat
  undoFrameAnchor : Option Nat
  dirty : Bool
  status : String
  deriving DecidableEq, Repr

/-- `self.undo_frame_anchor.map_or(false, |a| a != fi)`. -/
def anchorMismatch (anchor : Option Nat) (fi : Nat) : Bool :=
  match anchor with
  | some a => a != fi
  | none => false

/-- The history stacks are Lean lists whose head is the top of the Rust
`Vec` (its last element): `push` is cons, `pop` takes the head, and the
oldest-entry eviction `remove(0)` is `dropLast`. -/
def MixApp.undo (st : EditorState) : EditorState :=
  match st.shp with
  | none => st
  | some shp =>
    let fi := min st.currentFrame (shp.frames.length - 1)
    if anchorMismatch st.undoFrameAnchor fi then
      { st with undoStack := [], redoStack := [], undoFrameAnchor := some fi,
                status := "已切换帧，撤销历史已清空" }
    else
      match st.undoStack with
      | [] => st
      | prev :: rest =>
        { st with shp := some (setFramePixels shp fi prev),
                  undoStack := rest,
                  redoStack := (shp.frames.getD fi ⟨[]⟩).pixels :: st.redoStack,
                  dirty := true,
                  status := "已撤销" }

/-- `MixApp::redo`, with the same stack conventions as `MixApp.undo`. -/
def MixApp.redo (st : EditorState) : EditorState :=
  match st.shp with
  | none => st
  | some shp =>
    let fi := min st.currentFrame (shp.frames.length - 1)
    if anchorMismatch st.undoFrameAnchor fi then
      { st with undoStack := [], redoStack := [], undoFrameAnchor := some fi,
                status := "已切换帧，重做历史已清空" }
    else
      match st.redoStack with
      | [] => st
      | next :: rest =>
        { st with shp := some (setFramePixels shp fi next),
                  undoStack := (shp.frames.getD fi ⟨[]⟩).pixels :: st.undoStack,
                  redoStack := rest,
                  dirty := true,
                  status := "已重做" }

/-- The gesture-start history snapshot (the `pending_undo` push in
`MixApp::update`): push a copy of the active frame's buffer, trim to the
depth bound by evicting the oldest entry, clear the redo stack, and
record the active frame as the stacks' anchor. -/
def MixApp.record (st : EditorState) : EditorState :=
  match st.shp with
  | none => st
  | some shp =>
    let fi := min st.currentFrame (shp.frames.length - 1)
    let pushed := (shp.frames.getD fi ⟨[]⟩).pixels :: st.undoStack
    { st with
        undoStack := if pushed.length > st.maxUndoSteps then pushed.dropLast else pushed,
        redoStack := [],
        undoFrameAnchor := some fi }

/-! ## Presentation buffer (`SHP::egui_texture_with_brightness`) -/

/-- The frame the renderer reads: the requested frame when in range, else
frame 0 (`if frame < self.frames.len() { &self.frames[frame] } else {
&self.frames[0] }`). -/
def selectedFrame (s : SHP) (frame : Nat) : Frame :=
  if frame < s.frames.length then s.frames.getD frame ⟨[]⟩ else s.frames.getD 0 ⟨[]⟩

/-- The RGBA buffer `SHP::egui_texture_with_brightness` builds.  `scale`
abstracts the floating-point brightness pipeline applied to each color
channel (`(channel as f32 * brightness.clamp) .round() .min(255) as u8`):
quantifying over every such map covers every brightness value without
modelling floats.  The alpha channel never touches floats.  Oversized or
empty canvases yield the fixed 1-by-1 opaque black placeholder. -/
def egui_texture_rgba (scale : Nat → Nat) (s : SHP) (pal : List Rgb) (frame : Nat) : List Nat :=
  if s.width * s.height = 0 ∨ s.width * s.height > 64000000 then [0, 0, 0, 255]
  else
    (List.range (s.width * s.height)).flatMap fun i =>
      let idx := (selectedFrame s frame).pixels.getD i 0
      let c := pal.getD idx ⟨0, 0, 0⟩
      [scale c.r, scale c.g, scale c.b, if idx = 0 then 0 else 255]

/-- The grayscale palette of the spec's quantizer example:
entry `i` is `(i, i, i)`. -/
def grayPalette : List Rgb := (List.range 256).map fun i => ⟨i, i, i⟩

/-! ## General reading lemmas -/

theorem readU16_eq (bytes : List Nat) (pos : Nat) (h : pos + 2 ≤ bytes.length) :
    readU16 bytes pos = .ok (bytes.getD pos 0 + 256 * bytes.getD (pos + 1) 0, pos + 2) := by
  have h1 : pos < bytes.length := by omega
  have h2 : pos + 1 < bytes.length := by omega
  unfold readU16
  rw [List.drop_eq_getElem_cons h1, List.drop_eq_getElem_cons h2]
  simp [List.getElem?_eq_getElem h1, List.getElem?_eq_getElem h2]

/-! ## C4: out-of-canvas writes are no-ops, out-of-canvas reads give 0 -/

/-- C4.  For every frame and every coordinate outside the canvas
(x negative, y negative, x at or beyond width, or y at or beyond height),
`frame_set_pixel` leaves the sprite unchanged (hence every frame's pixel
buffer byte-for-byte unchanged, and no fault occurs since the function is
total) and `frame_get_pixel` returns 0; likewise the u32-coordinate
`SHP::set_pixel` is a no-op when x is at or beyond width or y at or
beyond height. -/
theorem frame_pixel_out_of_bounds_noop :
    (∀ (shp : SHP) (fi : Nat) (x y : Int) (c : Nat),
        x < 0 ∨ y < 0 ∨ (shp.width : Int) ≤ x ∨ (shp.height : Int) ≤ y →
        frame_set_pixel shp fi x y c = shp ∧ frame_get_pixel shp fi x y = 0)
    ∧ (∀ (s : SHP) (frame x y idx : Nat),
        s.width ≤ x ∨ s.height ≤ y → SHP.set_pixel s frame x y idx = s) := by
  refine ⟨fun shp fi x y c hout => ⟨?_, ?_⟩, fun s frame x y idx hout => ?_⟩
  · unfold frame_set_pixel
    split_ifs with h1 h2 h3 <;> try rfl
    exfalso
    omega
  · unfold frame_get_pixel
    split_ifs with h1 h2 <;> try rfl
    exfalso
    omega
  · unfold SHP.set_pixel
    split_ifs <;> rfl

/-- Witness for C4: `set_pixel(-1, 0, c)` and `set_pixel(width, 0, c)` on
a 2-by-1 canvas change nothing, and the out-of-range read returns 0. -/
theorem frame_pixel_out_of_bounds_noop_witness :
    frame_set_pixel (SHP.new 2 1 1) 0 (-1) 0 3 = SHP.new 2 1 1
    ∧ frame_set_pixel (SHP.new 2 1 1) 0 2 0 3 = SHP.new 2 1 1
    ∧ frame_get_pixel (SHP.new 2 1 1) 0 (-1) 0 = 0
    ∧ SHP.set_pixel (SHP.new 2 1 1) 0 2 0 3 = SHP.new 2 1 1 :=
  ⟨(frame_pixel_out_of_bounds_noop.1 (SHP.new 2 1 1) 0 (-1) 0 3 (by decide)).1,
   (frame_pixel_out_of_bounds_noop.1 (SHP.new 2 1 1) 0 2 0 3 (by decide)).1,
   (frame_pixel_out_of_bounds_noop.1 (SHP.new 2 1 1) 0 (-1) 0 3 (by decide)).2,
   frame_pixel_out_of_bounds_noop.2 (SHP.new 2 1 1) 0 2 0 3 (by decide)⟩

/-! ## C6: the quantizer returns the first index attaining the minimum -/

/-- Squared RGB distance of byte colors is far below the `u32::MAX`
starting value of the scan. -/
theorem dist_rgb2_lt (a b : Rgb) (ha : a.r < 256 ∧ a.g < 256 ∧ a.b < 256)
    (hb : b.r < 256 ∧ b.g < 256 ∧ b.b < 256) : dist_rgb2 a b < 4294967295 := by
  obtain ⟨h1, h2, h3⟩ := ha
  obtain ⟨h4, h5, h6⟩ := hb
  have key : ∀ p q : Nat, p < 256 → q < 256 →
      0 ≤ ((p : Int) - q) * ((p : Int) - q) ∧ ((p : Int) - q) * ((p : Int) - q) ≤ 65025 := by
    intro p q hp hq
    have hlo : -255 ≤ (p : Int) - q := by omega
    have hhi : (p : Int) - q ≤ 255 := by omega
    exact ⟨mul_self_nonneg _, by nlinarith⟩
  have k1 := key a.r b.r h1 h4
  have k2 := key a.g b.g h2 h5
  have k3 := key a.b b.b h3 h6
  unfold dist_rgb2
  generalize hx : ((a.r : Int) - b.r) * ((a.r : Int) - b.r) = x at k1
  generalize hy : ((a.g : Int) - b.g) * ((a.g : Int) - b.g) = y at k2
  generalize hz : ((a.b : Int) - b.b) * ((a.b : Int) - b.b) = z at k3
  omega

/-- Loop invariant of `bestLoop`: entering iteration `i` with the current
champion `best` (strictly below `i`), its distance `bestD`, no index
below `i` beating `bestD` and every index below `best` strictly worse,
the loop returns the first index attaining the minimal distance. -/
theorem bestLoop_inv (c : Rgb) (palette : List Rgb) :
    ∀ k i best bestD : Nat,
      k + i = 256 → best < i →
      bestD = dist_rgb2 c (palette.getD best ⟨0, 0, 0⟩) →
      (∀ j, j < i → bestD ≤ dist_rgb2 c (palette.getD j ⟨0, 0, 0⟩)) →
      (∀ j, j < best → bestD < dist_rgb2 c (palette.getD j ⟨0, 0, 0⟩)) →
      bestLoop c palette k i best bestD < 256
      ∧ (∀ j, j < 256 → dist_rgb2 c (palette.getD (bestLoop c palette k i best bestD) ⟨0, 0, 0⟩)
            ≤ dist_rgb2 c (palette.getD j ⟨0, 0, 0⟩))
      ∧ (∀ j, j < bestLoop c palette k i best bestD →
            dist_rgb2 c (palette.getD (bestLoop c palette k i best bestD) ⟨0, 0, 0⟩)
              < dist_rgb2 c (palette.getD j ⟨0, 0, 0⟩)) := by
  intro k
  induction k with
  | zero =>
    intro i best bestD hki hbi hbd hle hlt
    simp only [bestLoop]
    refine ⟨by omega, fun j hj => ?_, fun j hj => ?_⟩
    · rw [← hbd]
      exact hle j (by omega)
    · rw [← hbd]
      exact hlt j hj
  | succ k ih =>
    intro i best bestD hki hbi hbd hle hlt
    have hi : i < 256 := by omega
    simp only [bestLoop]
    by_cases hd : dist_rgb2 c (palette.getD i ⟨0, 0, 0⟩) < bestD
    · rw [if_pos hd]
      by_cases h0 : dist_rgb2 c (palette.getD i ⟨0, 0, 0⟩) = 0
      · rw [if_pos h0]
        refine ⟨hi, fun j hj => ?_, fun j hj => ?_⟩
        · rw [h0]
          exact Nat.zero_le _
        · have := hle j (by omega)
          omega
      · rw [if_neg h0]
        refine ih (i + 1) i _ (by omega) (by omega) rfl (fun j hj => ?_) (fun j hj => ?_)
        · rcases Nat.lt_succ_iff_lt_or_eq.mp hj with h | h
          · have := hle j h
            omega
          · rw [h]
        · have := hle j hj
          omega
    · rw [if_neg hd]
      refine ih (i + 1) best bestD (by omega) (by omega) hbd (fun j hj => ?_) hlt
      rcases Nat.lt_succ_iff_lt_or_eq.mp hj with h | h
      · exact hle j h
      · rw [h]
        omega

/-- Unfolding the first iteration of the scan. -/
theorem bestLoop_step256 (c : Rgb) (pal : List Rgb) :
    bestLoop c pal 256 0 0 4294967295 =
      if dist_rgb2 c (pal.getD 0 ⟨0, 0, 0⟩) < 4294967295 then
        if dist_rgb2 c (pal.getD 0 ⟨0, 0, 0⟩) = 0 then 0
        else bestLoop c pal 255 1 0 (dist_rgb2 c (pal.getD 0 ⟨0, 0, 0⟩))
      else bestLoop c pal 255 1 0 4294967295 := rfl

/-- Characterization of `best_index_rgb` for byte colors: the returned
index is below 256, attains the minimum distance over indices 0..255, and
every strictly smaller index has a strictly larger distance. -/
theorem best_index_char (c : Rgb) (palette : List Rgb)
    (hc : c.r < 256 ∧ c.g < 256 ∧ c.b < 256)
    (hpal : ∀ p, p ∈ palette → p.r < 256 ∧ p.g < 256 ∧ p.b < 256) :
    best_index_rgb c palette < 256
    ∧ (∀ j, j < 256 → dist_rgb2 c (palette.getD (best_index_rgb c palette) ⟨0, 0, 0⟩)
         ≤ dist_rgb2 c (palette.getD j ⟨0, 0, 0⟩))
    ∧ (∀ j, j < best_index_rgb c palette →
         dist_rgb2 c (palette.getD (best_index_rgb c palette) ⟨0, 0, 0⟩)
           < dist_rgb2 c (palette.getD j ⟨0, 0, 0⟩)) := by
  have hb0 : (⟨0, 0, 0⟩ : Rgb).r < 256 ∧ (⟨0, 0, 0⟩ : Rgb).g < 256 ∧ (⟨0, 0, 0⟩ : Rgb).b < 256 := by
    decide
  have hd0 : dist_rgb2 c (palette.getD 0 ⟨0, 0, 0⟩) < 4294967295 := by
    by_cases hmem : 0 < palette.length
    · refine dist_rgb2_lt c _ hc (hpal _ ?_)
      rw [getD_of_lt palette 0 _ hmem]
      exact palette.get_mem 0 hmem
    · have hnil : palette = [] := List.length_eq_zero.mp (by omega)
      rw [hnil]
      exact dist_rgb2_lt c _ hc hb0
  unfold best_index_rgb
  rw [bestLoop_step256, if_pos hd0]
  by_cases h0 : dist_rgb2 c (palette.getD 0 ⟨0, 0, 0⟩) = 0
  · rw [if_pos h0]
    refine ⟨by omega, fun j hj => ?_, fun j hj => by omega⟩
    rw [h0]
    exact Nat.zero_le _
  · rw [if_neg h0]
    refine bestLoop_inv c palette 255 1 0 _ (by omega) (by omega) rfl
      (fun j hj => ?_) (fun j hj => by omega)
    have hj0 : j = 0 := by omega
    rw [hj0]

/-- Every grayscale palette entry has byte channels. -/
theorem grayPalette_wf : ∀ p, p ∈ grayPalette → p.r < 256 ∧ p.g < 256 ∧ p.b < 256 := by
  intro p hp
  simp only [grayPalette, List.mem_map, List.mem_range] at hp
  obtain ⟨i, hi, hpi⟩ := hp
  rw [← hpi]
  exact ⟨hi, hi, hi⟩

/-- Indexing the grayscale palette. -/
theorem grayPalette_getD (i : Nat) (hi : i < 256) : grayPalette.getD i ⟨0, 0, 0⟩ = ⟨i, i, i⟩ := by
  have hlen : i < grayPalette.length := by
    simp [grayPalette]
    omega
  rw [getD_of_lt _ _ _ hlen]
  simp [grayPalette]

/-- The only gray level at distance zero from (128,128,128) is 128. -/
theorem dist_gray_eq_zero (b : Nat) (h : dist_rgb2 ⟨128, 128, 128⟩ ⟨b, b, b⟩ = 0) : b = 128 := by
  unfold dist_rgb2 at h
  simp only at h
  have hle : ((128 : Int) - b) * ((128 : Int) - b) + ((128 : Int) - b) * ((128 : Int) - b)
      + ((128 : Int) - b) * ((128 : Int) - b) ≤ 0 := by
    rw [← Int.toNat_eq_zero]
    exact h
  have hsq : (0 : Int) ≤ ((128 : Int) - b) * ((128 : Int) - b) := mul_self_nonneg _
  have hz : ((128 : Int) - b) * ((128 : Int) - b) = 0 := by omega
  have := mul_self_eq_zero.mp hz
  omega

/-- C6.  `best_index_rgb` scans indices 0..255 ascending by squared
Euclidean RGB distance and returns the first index achieving the minimum:
its distance is a lower bound over all 256 indices and every strictly
smaller index is strictly worse (so ties resolve to the lowest index, and
the early exit on an exact match cannot skip an earlier minimum).
Determinism is inherent: the embedding is a pure function.  On the
grayscale palette where entry i is (i,i,i), color (128,128,128) maps to
index 128. -/
theorem best_index_rgb_first_min (c : Rgb) (palette : List Rgb)
    (hc : c.r < 256 ∧ c.g < 256 ∧ c.b < 256)
    (hpal : ∀ p, p ∈ palette → p.r < 256 ∧ p.g < 256 ∧ p.b < 256) :
    (best_index_rgb c palette < 256
     ∧ (∀ j, j < 256 → dist_rgb2 c (palette.getD (best_index_rgb c palette) ⟨0, 0, 0⟩)
          ≤ dist_rgb2 c (palette.getD j ⟨0, 0, 0⟩))
     ∧ (∀ j, j < best_index_rgb c palette →
          dist_rgb2 c (palette.getD (best_index_rgb c palette) ⟨0, 0, 0⟩)
            < dist_rgb2 c (palette.getD j ⟨0, 0, 0⟩)))
    ∧ best_index_rgb ⟨128, 128, 128⟩ grayPalette = 128 := by
  refine ⟨best_index_char c palette hc hpal, ?_⟩
  obtain ⟨hlt, hmin, _⟩ := best_index_char ⟨128, 128, 128⟩ grayPalette (by decide) grayPalette_wf
  have h128 := hmin 128 (by omega)
  rw [grayPalette_getD 128 (by omega)] at h128
  have hD128 : dist_rgb2 ⟨128, 128, 128⟩ ⟨128, 128, 128⟩ = 0 := by decide
  rw [hD128] at h128
  have hDb : dist_rgb2 ⟨128, 128, 128⟩
      (grayPalette.getD (best_index_rgb ⟨128, 128, 128⟩ grayPalette) ⟨0, 0, 0⟩) = 0 := by omega
  rw [grayPalette_getD _ hlt] at hDb
  exact dist_gray_eq_zero _ hDb

/-- Witness for C6 at the grayscale palette and color (128,128,128). -/
theorem best_index_rgb_first_min_witness :
    best_index_rgb ⟨128, 128, 128⟩ grayPalette < 256
    ∧ best_index_rgb ⟨128, 128, 128⟩ grayPalette = 128 :=
  ⟨(best_index_rgb_first_min ⟨128, 128, 128⟩ grayPalette (by decide) grayPalette_wf).1.1,
   (best_index_rgb_first_min ⟨128, 128, 128⟩ grayPalette (by decide) grayPalette_wf).2⟩

/-! ## Reduction helpers for the `Except` monad -/

@[simp] theorem exceptOkBind {ε α β : Type} (a : α) (f : α → Except ε β) :
    (Except.ok a : Except ε α) >>= f = f a := rfl

@[simp] theorem exceptErrorBind {ε α β : Type} (e : ε) (f : α → Except ε β) :
    (Except.error e : Except ε α) >>= f = Except.error e := rfl

@[simp] theorem exceptThrow {ε α : Type} (e : ε) :
    (throw e : Except ε α) = Except.error e := rfl

@[simp] theorem exceptPure {ε α : Type} (a : α) :
    (pure a : Except ε α) = Except.ok a := rfl

/-! ## C3: cross-frame undo/redo invalidation -/

/-- C3.  When the history stacks belong to a stored anchor frame and the
active (clamped) frame index differs from it, both `undo` and `redo`
discard both stacks, reset the anchor to the active index, and leave the
sprite — hence every pixel of every frame — untouched. -/
theorem undo_redo_anchor_invalidation :
    ∀ (st : EditorState) (shp : SHP) (anc : Nat),
      st.shp = some shp →
      st.undoFrameAnchor = some anc →
      anc ≠ min st.currentFrame (shp.frames.length - 1) →
      ((MixApp.undo st).undoStack = [] ∧ (MixApp.undo st).redoStack = []
        ∧ (MixApp.undo st).undoFrameAnchor
            = some (min st.currentFrame (shp.frames.length - 1))
        ∧ (MixApp.undo st).shp = st.shp)
      ∧ ((MixApp.redo st).undoStack = [] ∧ (MixApp.redo st).redoStack = []
        ∧ (MixApp.redo st).undoFrameAnchor
            = some (min st.currentFrame (shp.frames.length - 1))
        ∧ (MixApp.redo st).shp = st.shp) := by
  intro st shp anc hshp hanc hne
  have hcond : anchorMismatch st.undoFrameAnchor (min st.currentFrame (shp.frames.length - 1))
      = true := by
    rw [hanc]
    simp only [anchorMismatch, bne_iff_ne, ne_eq]
    exact hne
  constructor
  · simp only [MixApp.undo, hshp, hcond, if_true]
    refine ⟨?_, ?_, ?_, ?_⟩ <;> trivial
  · simp only [MixApp.redo, hshp, hcond, if_true]
    refine ⟨?_, ?_, ?_, ?_⟩ <;> trivial

/-- Witness for C3, following the spec's scenario: `record` with active
frame 0 on a two-frame sprite, switch the active frame to 1, then `undo`:
both stacks are cleared and the sprite (in particular frame 1) is
byte-for-byte unchanged. -/
theorem undo_redo_anchor_invalidation_witness :
    (MixApp.undo { MixApp.record ⟨some (SHP.new 2 1 2), 0, [], [], 100, none, false, ""⟩ with
        currentFrame := 1 }).undoStack = []
    ∧ (MixApp.undo { MixApp.record ⟨some (SHP.new 2 1 2), 0, [], [], 100, none, false, ""⟩ with
        currentFrame := 1 }).redoStack = []
    ∧ (MixApp.undo { MixApp.record ⟨some (SHP.new 2 1 2), 0, [], [], 100, none, false, ""⟩ with
        currentFrame := 1 }).shp = some (SHP.new 2 1 2) := by
  have h := undo_redo_anchor_invalidation
    { MixApp.record ⟨some (SHP.new 2 1 2), 0, [], [], 100, none, false, ""⟩ with currentFrame := 1 }
    (SHP.new 2 1 2) 0 rfl rfl (by decide)
  exact ⟨h.1.1, h.1.2.1, h.1.2.2.2⟩

/-! ## C9: decoder header checks -/

theorem load_of_short (bytes : List Nat) (h : bytes.length < 8) :
    SHP.load bytes = .error .headerTooShort := by
  unfold SHP.load
  rw [if_pos h]

theorem readU16_eq0 (bytes : List Nat) (h : 2 ≤ bytes.length) :
    readU16 bytes 0 = .ok (bytes.getD 0 0 + 256 * bytes.getD 1 0, 2) := by
  rw [readU16_eq bytes 0 h]

theorem readU16_eq2 (bytes : List Nat) (h : 4 ≤ bytes.length) :
    readU16 bytes 2 = .ok (bytes.getD 2 0 + 256 * bytes.getD 3 0, 4) := by
  rw [readU16_eq bytes 2 (by omega)]

theorem readU16_eq4 (bytes : List Nat) (h : 6 ≤ bytes.length) :
    readU16 bytes 4 = .ok (bytes.getD 4 0 + 256 * bytes.getD 5 0, 6) := by
  rw [readU16_eq bytes 4 (by omega)]

theorem readU16_eq6 (bytes : List Nat) (h : 8 ≤ bytes.length) :
    readU16 bytes 6 = .ok (bytes.getD 6 0 + 256 * bytes.getD 7 0, 8) := by
  rw [readU16_eq bytes 6 (by omega)]

theorem load_of_marker (bytes : List Nat) (h8 : 8 ≤ bytes.length)
    (hm : bytes.getD 0 0 + 256 * bytes.getD 1 0 ≠ 0) :
    SHP.load bytes = .error .notASprite := by
  unfold SHP.load
  rw [if_neg (by omega), readU16_eq0 bytes (by omega)]
  simp only [exceptOkBind]
  rw [if_pos hm]
  simp only [exceptThrow, exceptErrorBind]

theorem load_of_zero_dim (bytes : List Nat) (h8 : 8 ≤ bytes.length)
    (hm : bytes.getD 0 0 + 256 * bytes.getD 1 0 = 0)
    (hdim : bytes.getD 2 0 + 256 * bytes.getD 3 0 = 0
      ∨ bytes.getD 4 0 + 256 * bytes.getD 5 0 = 0
      ∨ bytes.getD 6 0 + 256 * bytes.getD 7 0 = 0) :
    SHP.load bytes = .error .invalidDimensions := by
  unfold SHP.load
  rw [if_neg (by omega), readU16_eq0 bytes (by omega)]
  simp only [exceptOkBind]
  rw [if_neg (by omega)]
  simp only [exceptPure, exceptOkBind]
  rw [readU16_eq2 bytes (by omega)]
  simp only [exceptOkBind]
  rw [readU16_eq4 bytes (by omega)]
  simp only [exceptOkBind]
  rw [readU16_eq6 bytes (by omega)]
  simp only [exceptOkBind]
  rw [if_pos hdim]
  simp only [exceptThrow, exceptErrorBind]

theorem load_ok_checks (bytes : List Nat) (s : SHP) (h : SHP.load bytes = .ok s) :
    8 ≤ bytes.length
    ∧ bytes.getD 0 0 + 256 * bytes.getD 1 0 = 0
    ∧ bytes.getD 2 0 + 256 * bytes.getD 3 0 ≠ 0
    ∧ bytes.getD 4 0 + 256 * bytes.getD 5 0 ≠ 0
    ∧ bytes.getD 6 0 + 256 * bytes.getD 7 0 ≠ 0 := by
  by_cases h8 : bytes.length < 8
  · rw [load_of_short bytes h8] at h
    cases h
  · have h8' : 8 ≤ bytes.length := by omega
    by_cases hm : bytes.getD 0 0 + 256 * bytes.getD 1 0 = 0
    · by_cases hw : bytes.getD 2 0 + 256 * bytes.getD 3 0 = 0
      · rw [load_of_zero_dim bytes h8' hm (Or.inl hw)] at h
        cases h
      · by_cases hh : bytes.getD 4 0 + 256 * bytes.getD 5 0 = 0
        · rw [load_of_zero_dim bytes h8' hm (Or.inr (Or.inl hh))] at h
          cases h
        · by_cases hn : bytes.getD 6 0 + 256 * bytes.getD 7 0 = 0
          · rw [load_of_zero_dim bytes h8' hm (Or.inr (Or.inr hn))] at h
            cases h
          · exact ⟨h8', hm, hw, hh, hn⟩
    · rw [load_of_marker bytes h8' hm] at h
      cases h

/-- C9.  Decoding fails by returning the dedicated short-header error on
buffers shorter than 8 bytes, the not-a-sprite error when the leading
16-bit marker is nonzero, and the invalid-dimensions error when the
decoded width, height or frame count is zero; and decoding succeeds only
on inputs that pass all of these checks.  (The source reports these as
distinct strings; the spec's `InvalidDimensions` covers both its
short-buffer string and its zero-dimension string, and `NotASprite` is
its nonzero-marker string.) -/
theorem load_header_checks :
    (∀ bytes : List Nat, bytes.length < 8 → SHP.load bytes = .error .headerTooShort)
    ∧ (∀ bytes : List Nat, 8 ≤ bytes.length → bytes.getD 0 0 + 256 * bytes.getD 1 0 ≠ 0 →
        SHP.load bytes = .error .notASprite)
    ∧ (∀ bytes : List Nat, 8 ≤ bytes.length → bytes.getD 0 0 + 256 * bytes.getD 1 0 = 0 →
        (bytes.getD 2 0 + 256 * bytes.getD 3 0 = 0
          ∨ bytes.getD 4 0 + 256 * bytes.getD 5 0 = 0
          ∨ bytes.getD 6 0 + 256 * bytes.getD 7 0 = 0) →
        SHP.load bytes = .error .invalidDimensions)
    ∧ (∀ (bytes : List Nat) (s : SHP), SHP.load bytes = .ok s →
        8 ≤ bytes.length
        ∧ bytes.getD 0 0 + 256 * bytes.getD 1 0 = 0
        ∧ bytes.getD 2 0 + 256 * bytes.getD 3 0 ≠ 0
        ∧ bytes.getD 4 0 + 256 * bytes.getD 5 0 ≠ 0
        ∧ bytes.getD 6 0 + 256 * bytes.getD 7 0 ≠ 0) :=
  ⟨load_of_short, load_of_marker, load_of_zero_dim, load_ok_checks⟩

/-- Witness for C9 on concrete inputs: a 3-byte buffer, a buffer with
marker 1, and a buffer declaring width 0. -/
theorem load_header_checks_witness :
    SHP.load [1, 2, 3] = .error .headerTooShort
    ∧ SHP.load [1, 0, 4, 0, 1, 0, 1, 0] = .error .notASprite
    ∧ SHP.load [0, 0, 0, 0, 1, 0, 1, 0] = .error .invalidDimensions :=
  ⟨load_header_checks.1 [1, 2, 3] (by decide),
   load_header_checks.2.1 [1, 0, 4, 0, 1, 0, 1, 0] (by decide) (by decide),
   load_header_checks.2.2.1 [0, 0, 0, 0, 1, 0, 1, 0] (by decide) (by decide) (by decide)⟩

/-! ## Append lemmas for `getD` -/

theorem getD_append_left {α : Type} (l1 l2 : List α) (j : Nat) (d : α) (h : j < l1.length) :
    (l1 ++ l2).getD j d = l1.getD j d := by
  simp [List.getD_eq_getElem?_getD, List.getElem?_append_left h]

theorem getD_append_right {α : Type} (l1 l2 : List α) (j : Nat) (d : α) (h : l1.length ≤ j) :
    (l1 ++ l2).getD j d = l2.getD (j - l1.length) d := by
  simp [List.getD_eq_getElem?_getD, List.getElem?_append_right h]

/-! ## C7 and C10: presentation buffer -/

theorem length_flatMap_fixed4 (g : Nat → List Nat) (hg : ∀ j, (g j).length = 4) :
    ∀ n, ((List.range n).flatMap g).length = 4 * n := by
  intro n
  induction n with
  | zero => simp
  | succ n ih =>
    rw [List.range_succ, List.flatMap_append]
    simp only [List.flatMap_cons, List.flatMap_nil, List.append_nil, List.length_append, ih, hg]
    omega

theorem getD_flatMap_fixed4 (g : Nat → List Nat) (hg : ∀ j, (g j).length = 4) :
    ∀ n i k : Nat, i < n → k < 4 →
      ((List.range n).flatMap g).getD (4 * i + k) 0 = (g i).getD k 0 := by
  intro n
  induction n with
  | zero => omega
  | succ n ih =>
    intro i k hi hk
    rw [List.range_succ, List.flatMap_append]
    have hA : ((List.range n).flatMap g).length = 4 * n := length_flatMap_fixed4 g hg n
    by_cases hin : i < n
    · rw [getD_append_left _ _ _ _ (by omega)]
      exact ih i k hin hk
    · have hieq : i = n := by omega
      subst hieq
      rw [getD_append_right _ _ _ _ (by omega)]
      simp only [List.flatMap_cons, List.flatMap_nil, List.append_nil, hA]
      congr 1
      omega

/-- C7.  For every sprite within the allocation ceiling, palette, frame
index and channel-scaling map (covering every brightness value), the
produced RGBA buffer has alpha 0 at exactly the pixels whose source
palette index is 0 and alpha 255 at every other pixel. -/
theorem texture_alpha_rule (scale : Nat → Nat) (s : SHP) (pal : List Rgb) (frame i : Nat)
    (hnz : 0 < s.width * s.height) (hceil : s.width * s.height ≤ 64000000)
    (hi : i < s.width * s.height) :
    (egui_texture_rgba scale s pal frame).getD (4 * i + 3) 0
      = if (selectedFrame s frame).pixels.getD i 0 = 0 then 0 else 255 := by
  unfold egui_texture_rgba
  rw [if_neg (by omega)]
  rw [getD_flatMap_fixed4
    (fun i =>
      let idx := (selectedFrame s frame).pixels.getD i 0
      let c := pal.getD idx ⟨0, 0, 0⟩
      [scale c.r, scale c.g, scale c.b, if idx = 0 then 0 else 255])
    (fun j => rfl) _ i 3 hi (by omega)]
  by_cases h0 : (selectedFrame s frame).pixels.getD i 0 = 0
  · simp only [h0, if_pos rfl]
    rfl
  · simp only [if_neg h0]
    rfl

/-- Witness for C7: a 1-by-1 sprite whose single pixel is background. -/
theorem texture_alpha_rule_witness :
    (egui_texture_rgba id ⟨1, 1, [⟨[0]⟩]⟩ [] 0).getD 3 0
      = if (selectedFrame ⟨1, 1, [⟨[0]⟩]⟩ 0).pixels.getD 0 0 = 0 then 0 else 255 :=
  texture_alpha_rule id ⟨1, 1, [⟨[0]⟩]⟩ [] 0 0 (by decide) (by decide) (by decide)

/-- C10.  For a sprite with at least one frame, rendering with a frame
index at or beyond the frame count produces exactly the buffer rendered
for frame 0 (the out-of-range index silently falls back to the first
frame; in particular the call does not fail and is not blank unless frame
0 itself is). -/
theorem texture_frame_fallback (scale : Nat → Nat) (s : SHP) (pal : List Rgb) (frame : Nat)
    (hne : s.frames ≠ []) (hf : s.frames.length ≤ frame) :
    egui_texture_rgba scale s pal frame = egui_texture_rgba scale s pal 0 := by
  have hpos : 0 < s.frames.length := List.length_pos.mpr hne
  have hsel : selectedFrame s frame = selectedFrame s 0 := by
    unfold selectedFrame
    rw [if_neg (by omega), if_pos hpos]
  unfold egui_texture_rgba
  rw [hsel]

/-- Witness for C10: frame index 3 on a one-frame sprite renders frame 0. -/
theorem texture_frame_fallback_witness :
    egui_texture_rgba id ⟨1, 1, [⟨[5]⟩]⟩ [] 3 = egui_texture_rgba id ⟨1, 1, [⟨[5]⟩]⟩ [] 0 :=
  texture_frame_fallback id ⟨1, 1, [⟨[5]⟩]⟩ [] 3 (by decide) (by decide)

/-! ## C5 and C8: flood fill -/

theorem getD_set_self (l : List Nat) (i v : Nat) (hi : i < l.length) :
    (l.set i v).getD i 0 = v := by
  simp [List.getD_eq_getElem?_getD, List.getElem?_set_self hi]

theorem getD_set_ne (l : List Nat) (i j v : Nat) (hij : i ≠ j) :
    (l.set i v).getD j 0 = l.getD j 0 := by
  simp [List.getD_eq_getElem?_getD, List.getElem?_set_ne hij]

/-- Every write of the flood-fill loop writes `newColor`, so a cell
already holding `newColor` still holds it when the loop finishes. -/
theorem floodLoop_preserves (w h target newColor : Nat) (hne : target ≠ newColor) :
    ∀ (stack : List (Int × Int)) (px : List Nat) (hlen : px.length = w * h) (j : Nat),
      px.getD j 0 = newColor →
      (floodLoop w h target newColor hne stack px hlen).getD j 0 = newColor := by
  intro stack px hlen
  induction stack, px, hlen using floodLoop.induct w h target newColor hne with
  | case1 px hlen =>
    intro j hj
    simpa [floodLoop] using hj
  | case2 cx cy rest px hlen hout hrec ih =>
    intro j hj
    rw [floodLoop]
    rw [if_pos hout]
    exact ih j hj
  | case3 cx cy rest px hlen hout hnt hrec ih =>
    intro j hj
    rw [floodLoop]
    rw [if_neg hout, if_pos hnt]
    exact ih j hj
  | case4 cx cy rest px hlen hout hnt hrec ih =>
    intro j hj
    rw [floodLoop]
    rw [if_neg hout, if_neg hnt]
    apply ih
    by_cases hij : cy.toNat * w + cx.toNat = j
    · rw [← hij]
      rw [getD_set_self _ _ _ (by rw [hlen]; exact cell_index_lt w h cx cy hout)]
    · rw [getD_set_ne _ _ _ _ hij]
      exact hj

/-- Definitional unfolding of `floodFillCanvas`. -/
theorem floodFillCanvas_eq (w h : Nat) (x y : Int) (C : Nat) (px : List Nat)
    (hlen : px.length = w * h) :
    floodFillCanvas w h x y C px hlen
      = if hne : getPixelCanvas w h px x y = C then px
        else floodLoop w h (getPixelCanvas w h px x y) C hne [(x, y)] px hlen := rfl

/-- The flood-fill loop never changes the buffer length. -/
theorem floodLoop_length (w h target newColor : Nat) (hne : target ≠ newColor) :
    ∀ (stack : List (Int × Int)) (px : List Nat) (hlen : px.length = w * h),
      (floodLoop w h target newColor hne stack px hlen).length = w * h := by
  intro stack px hlen
  induction stack, px, hlen using floodLoop.induct w h target newColor hne with
  | case1 px hlen =>
    rw [floodLoop]
    exact hlen
  | case2 cx cy rest px hlen hout hrec ih =>
    rw [floodLoop, if_pos hout]
    exact ih
  | case3 cx cy rest px hlen hout hnt hrec ih =>
    rw [floodLoop, if_neg hout, if_pos hnt]
    exact ih
  | case4 cx cy rest px hlen hout hnt hrec ih =>
    rw [floodLoop, if_neg hout, if_neg hnt]
    exact ih

/-- `floodFillCanvas` never changes the buffer length. -/
theorem floodFillCanvas_length (w h : Nat) (x y : Int) (C : Nat) (px : List Nat)
    (hlen : px.length = w * h) :
    (floodFillCanvas w h x y C px hlen).length = w * h := by
  rw [floodFillCanvas_eq]
  by_cases h0 : getPixelCanvas w h px x y = C
  · rw [dif_pos h0]
    exact hlen
  · rw [dif_neg h0]
    exact floodLoop_length w h _ C h0 [(x, y)] px hlen

/-- C8.  The explicit-stack flood-fill traversal terminates from every
state: for every canvas, target and new color (distinct, as established
by the guard before the loop), every stack of pending coordinates and
every well-formed buffer, some finite step budget makes the step-counted
loop `floodLoopFuel` halt with the loop's result — each cell is repainted
before its neighbors are reconsidered, so the traversal cannot run
forever. -/
theorem flood_fill_terminates (w h target newColor : Nat) (hne : target ≠ newColor)
    (stack : List (Int × Int)) (px : List Nat) (hlen : px.length = w * h) :
    ∃ n, floodLoopFuel w h target newColor n stack px
      = some (floodLoop w h target newColor hne stack px hlen) := by
  induction stack, px, hlen using floodLoop.induct w h target newColor hne with
  | case1 px hlen =>
    refine ⟨1, ?_⟩
    rw [floodLoop]
    rfl
  | case2 cx cy rest px hlen hout hrec ih =>
    obtain ⟨n, hn⟩ := ih
    refine ⟨n + 1, ?_⟩
    have e1 : floodLoopFuel w h target newColor (n + 1) ((cx, cy) :: rest) px
        = floodLoopFuel w h target newColor n rest px := by
      rw [floodLoopFuel, if_pos hout]
    rw [e1, hn]
    conv_rhs => rw [floodLoop, if_pos hout]
  | case3 cx cy rest px hlen hout hnt hrec ih =>
    obtain ⟨n, hn⟩ := ih
    refine ⟨n + 1, ?_⟩
    have e1 : floodLoopFuel w h target newColor (n + 1) ((cx, cy) :: rest) px
        = floodLoopFuel w h target newColor n rest px := by
      rw [floodLoopFuel, if_neg hout, if_pos hnt]
    rw [e1, hn]
    conv_rhs => rw [floodLoop, if_neg hout, if_pos hnt]
  | case4 cx cy rest px hlen hout hnt hrec ih =>
    obtain ⟨n, hn⟩ := ih
    refine ⟨n + 1, ?_⟩
    have e1 : floodLoopFuel w h target newColor (n + 1) ((cx, cy) :: rest) px
        = floodLoopFuel w h target newColor n
            ((cx, cy + 1) :: (cx, cy - 1) :: (cx + 1, cy) :: (cx - 1, cy) :: rest)
            (px.set (cy.toNat * w + cx.toNat) newColor) := by
      rw [floodLoopFuel, if_neg hout, if_neg hnt]
    rw [e1, hn]
    conv_rhs => rw [floodLoop, if_neg hout, if_neg hnt]

/-- Witness for C8: a concrete 2-by-1 canvas, seed stack, and colors. -/
theorem flood_fill_terminates_witness :
    ∃ n, floodLoopFuel 2 1 0 7 n [(0, 0)] [0, 0]
      = some (floodLoop 2 1 0 7 (by decide) [(0, 0)] [0, 0] (by decide)) :=
  flood_fill_terminates 2 1 0 7 (by decide) [(0, 0)] [0, 0] (by decide)

/-- C5.  `flood_fill` captures the seed color as the target and is a
no-op when that target already equals the new color; filling twice at the
same seed with the same color equals filling once: the second call either
sees its target equal to the new color (seed in bounds: the first call's
first action repaints the seed, and the loop only ever writes the new
color) or discards the out-of-bounds seed without writing. -/
theorem flood_fill_idempotent (w h : Nat) (x y : Int) (C : Nat) (px : List Nat)
    (hlen : px.length = w * h)
    (hr : (floodFillCanvas w h x y C px hlen).length = w * h) :
    floodFillCanvas w h x y C (floodFillCanvas w h x y C px hlen) hr
      = floodFillCanvas w h x y C px hlen := by
  by_cases h0 : getPixelCanvas w h px x y = C
  · have hfix : floodFillCanvas w h x y C px hlen = px := by
      rw [floodFillCanvas_eq, dif_pos h0]
    simp only [hfix]
  · have hfix : floodFillCanvas w h x y C px hlen
        = floodLoop w h (getPixelCanvas w h px x y) C h0 [(x, y)] px hlen := by
      rw [floodFillCanvas_eq, dif_neg h0]
    by_cases hseed : x < 0 ∨ y < 0 ∨ (w : Int) ≤ x ∨ (h : Int) ≤ y
    · have hloop : floodLoop w h (getPixelCanvas w h px x y) C h0 [(x, y)] px hlen = px := by
        rw [floodLoop, if_pos hseed, floodLoop]
      have hfix2 : floodFillCanvas w h x y C px hlen = px := hfix.trans hloop
      simp only [hfix2]
    · have hbound : y.toNat * w + x.toNat < px.length := by
        rw [hlen]
        exact cell_index_lt w h x y hseed
      have hget : getPixelCanvas w h px x y = px.getD (y.toNat * w + x.toNat) 0 := by
        unfold getPixelCanvas
        rw [if_neg (by omega), if_neg (by omega)]
      have hstep : floodLoop w h (getPixelCanvas w h px x y) C h0 [(x, y)] px hlen
          = floodLoop w h (getPixelCanvas w h px x y) C h0
              ((x, y + 1) :: (x, y - 1) :: (x + 1, y) :: (x - 1, y) :: [])
              (px.set (y.toNat * w + x.toNat) C) (by simpa using hlen) := by
        rw [floodLoop, if_neg hseed, if_neg (fun hc => hc hget.symm)]
      have hrC : (floodFillCanvas w h x y C px hlen).getD (y.toNat * w + x.toNat) 0 = C := by
        rw [hfix, hstep]
        apply floodLoop_preserves
        exact getD_set_self px _ C hbound
      have hget2 : getPixelCanvas w h (floodFillCanvas w h x y C px hlen) x y = C := by
        unfold getPixelCanvas
        rw [if_neg (by omega), if_neg (by omega)]
        exact hrC
      rw [floodFillCanvas_eq w h x y C (floodFillCanvas w h x y C px hlen) hr,
        dif_pos hget2]

/-- Witness for C5: filling a concrete 2-by-1 canvas twice at the same
seed with the same color changes nothing the second time. -/
theorem flood_fill_idempotent_witness :
    floodFillCanvas 2 1 0 0 7 (floodFillCanvas 2 1 0 0 7 [1, 0] (by decide))
        (floodFillCanvas_length 2 1 0 0 7 [1, 0] (by decide))
      = floodFillCanvas 2 1 0 0 7 [1, 0] (by decide) :=
  flood_fill_idempotent 2 1 0 0 7 [1, 0] (by decide)
    (floodFillCanvas_length 2 1 0 0 7 [1, 0] (by decide))

/-! ## C2: RLE0 row decoding -/

/-- A minimal single-frame RLE0 sprite file (width 4, height 1, flags 3,
data at offset 32) whose frame data is exactly the spec's example bytes
`[0x06, 0x00, 0x05, 0x00, 0x03]`: declared row length 6 (so 4 data bytes
after the length field), but only 3 data bytes supplied. -/
def c2ExampleBytes : List Nat :=
  [0, 0, 4, 0, 1, 0, 1, 0,
   0, 0, 0, 0, 4, 0, 1, 0, 3, 0, 0, 0, 0, 0, 0, 0, 0, 0, 0, 0, 32, 0, 0, 0,
   6, 0, 5, 0, 3]

/-- The same file with the row length field corrected to 5, so the
declared length matches the supplied bytes
(2-byte length + literal 5 + zero-run marker + count 3). -/
def c2AmendedBytes : List Nat :=
  [0, 0, 4, 0, 1, 0, 1, 0,
   0, 0, 0, 0, 4, 0, 1, 0, 3, 0, 0, 0, 0, 0, 0, 0, 0, 0, 0, 0, 32, 0, 0, 0,
   5, 0, 5, 0, 3]

/-- Counterexample to C2 as stated: the spec's example frame data
`[0x06,0x00,0x05,0x00,0x03]` does not decode to the pixel row
`[5,0,0,0]`; the decoder fails with a truncation error.  The declared row
length 6 covers the 2-byte length field plus 4 data bytes, but the
example supplies only 3 (the literal 5 counts 1 byte and the zero-run
`00 03` counts 2, not the 4 pixels it produces), so after consuming them
the scanner still expects one declared byte and reads past the supplied
data. -/
theorem rle0_example_fails : SHP.load c2ExampleBytes = .error .truncated := by decide

theorem length_drop_cons {α : Type} (l t : List α) (pos : Nat) (v : α)
    (h : l.drop pos = v :: t) : pos < l.length := by
  by_contra hc
  rw [List.drop_eq_nil_of_le (by omega)] at h
  cases h

/-- A successful RLE0 row scan consumes exactly its declared byte count:
if the scan returns normally, the final cursor is the start cursor plus
the declared remaining length.  (The hypothesis that the slice is
u32-sized rules out the astronomical buffers that could satisfy the
wrapped-around remaining counter after a dangling zero marker.) -/
theorem rle0Scan_ok_consumes (slice : List Nat) (w h yAbs : Nat) :
    ∀ (fuel pos rem xAbs : Nat) (px px2 : List Nat) (pos2 : Nat),
      slice.length ≤ 4294967296 →
      pos ≤ slice.length →
      rle0Scan slice w h yAbs fuel pos rem xAbs px = .ok (px2, pos2) →
      pos2 = pos + rem ∧ pos2 ≤ slice.length := by
  intro fuel
  induction fuel with
  | zero =>
    intro pos rem xAbs px px2 pos2 hb hp hok
    cases rem with
    | zero =>
      simp only [rle0Scan] at hok
      obtain ⟨h1, h2⟩ := Prod.mk.injEq .. ▸ (Except.ok.injEq .. ▸ hok)
      omega
    | succ r =>
      simp only [rle0Scan] at hok
      cases hok
  | succ fuel ih =>
    intro pos rem xAbs px px2 pos2 hb hp hok
    cases rem with
    | zero =>
      simp only [rle0Scan] at hok
      obtain ⟨h1, h2⟩ := Prod.mk.injEq .. ▸ (Except.ok.injEq .. ▸ hok)
      omega
    | succ r =>
      rw [rle0Scan] at hok
      split at hok
      · cases hok
      · rename_i v tail hdrop
        have hp1 : pos + 1 ≤ slice.length := length_drop_cons slice tail pos v hdrop
        split at hok
        · obtain ⟨e1, e2⟩ := ih (pos + 1) r (xAbs + 1) _ px2 pos2 hb hp1 hok
          exact ⟨by omega, e2⟩
        · split at hok
          · cases hok
          · rename_i c tail2 hdrop2
            have hp2 : pos + 2 ≤ slice.length := length_drop_cons slice tail2 (pos + 1) c hdrop2
            obtain ⟨e1, e2⟩ := ih (pos + 2) _ _ px px2 pos2 hb hp2 hok
            by_cases hr0 : r = 0
            · rw [if_pos hr0] at e1
              exfalso
              omega
            · rw [if_neg hr0] at e1
              exact ⟨by omega, e2⟩

/-- C2 as amended.  RLE0 rows are declared-length prefixed; a nonzero
byte is a literal pixel (cursor advances by one), a zero byte is followed
by a background-run count (cursor advances by the count, no writes); a
row whose scan completes successfully consumes exactly its declared byte
length.  The example is corrected: a 1-row, width-4 frame whose data is
`[0x05,0x00,0x05,0x00,0x03]` — declared length 5 matching the three data
bytes — decodes to the pixel row `[5,0,0,0]`. -/
theorem rle0_row_semantics :
    (∀ (slice : List Nat) (w h yAbs fuel pos rem xAbs : Nat) (px px2 : List Nat) (pos2 : Nat),
        slice.length ≤ 4294967296 →
        pos ≤ slice.length →
        rle0Scan slice w h yAbs fuel pos rem xAbs px = .ok (px2, pos2) →
        pos2 = pos + rem)
    ∧ SHP.load c2AmendedBytes = .ok ⟨4, 1, [⟨[5, 0, 0, 0]⟩]⟩ := by
  constructor
  · intro slice w h yAbs fuel pos rem xAbs px px2 pos2 hb hp hok
    exact (rle0Scan_ok_consumes slice w h yAbs fuel pos rem xAbs px px2 pos2 hb hp hok).1
  · decide

/-- Witness for the amended C2: a concrete one-literal row scan
(declared remaining 1) ends with its cursor advanced by exactly 1. -/
theorem rle0_row_semantics_witness :
    rle0Scan [5] 1 1 0 2 0 1 0 [0] = .ok ([5], 1) ∧ (1 : Nat) = 0 + 1 :=
  ⟨by decide, rle0_row_semantics.1 [5] 1 1 0 2 0 1 0 [0] [5] 1 (by decide) (by decide) (by decide)⟩

/-! ## C1: encode/decode round trip — infrastructure -/

theorem u16_recompose (v : Nat) (hv : v < 65536) : v % 256 + 256 * (v / 256 % 256) = v := by
  omega

theorem u32_recompose (v : Nat) (hv : v < 4294967296) :
    v % 256 + 256 * (v / 256 % 256) + 65536 * (v / 65536 % 256)
      + 16777216 * (v / 16777216 % 256) = v := by
  omega

theorem drop_shift {α : Type} (bytes rest : List α) (pos k : Nat)
    (hd : bytes.drop pos = rest) : bytes.drop (pos + k) = rest.drop k := by
  rw [← List.drop_drop, hd]

theorem take_append_add {α : Type} (l1 l2 : List α) (n : Nat) :
    (l1 ++ l2).take (l1.length + n) = l1 ++ l2.take n := by
  rw [List.take_append_eq_append_take, List.take_of_length_le (Nat.le_add_right _ _)]
  have harith : l1.length + n - l1.length = n := by omega
  rw [harith]

theorem drop_append_add {α : Type} (l1 l2 : List α) (n : Nat) :
    (l1 ++ l2).drop (l1.length + n) = l2.drop n := by
  rw [List.drop_append_eq_append_drop, List.drop_eq_nil_of_le (Nat.le_add_right _ _)]
  have harith : l1.length + n - l1.length = n := by omega
  rw [harith, List.nil_append]

theorem drop_append_le {α : Type} (l1 l2 : List α) (k : Nat) (h : k ≤ l1.length) :
    (l1 ++ l2).drop k = l1.drop k ++ l2 := by
  rw [List.drop_append_eq_append_drop]
  have harith : k - l1.length = 0 := by omega
  rw [harith, List.drop_zero]

theorem take_append_le {α : Type} (l1 l2 : List α) (k : Nat) (h : k ≤ l1.length) :
    (l1 ++ l2).take k = l1.take k := by
  rw [List.take_append_eq_append_take]
  have harith : k - l1.length = 0 := by omega
  rw [harith, List.take_zero, List.append_nil]

theorem readU16_drop (bytes t : List Nat) (pos b0 b1 : Nat)
    (hd : bytes.drop pos = b0 :: b1 :: t) :
    readU16 bytes pos = .ok (b0 + 256 * b1, pos + 2) := by
  unfold readU16
  rw [hd]

theorem readU32_drop (bytes t : List Nat) (pos b0 b1 b2 b3 : Nat)
    (hd : bytes.drop pos = b0 :: b1 :: b2 :: b3 :: t) :
    readU32 bytes pos = .ok (b0 + 256 * b1 + 65536 * b2 + 16777216 * b3, pos + 4) := by
  unfold readU32
  rw [hd]

theorem readExact_drop (bytes l t : List Nat) (pos n : Nat) (hn : 0 < n)
    (hd : bytes.drop pos = l ++ t) (hl : l.length = n) :
    readExact bytes pos n = .ok (l, pos + n) := by
  have hlen : (bytes.drop pos).length = bytes.length - pos := List.length_drop ..
  rw [hd] at hlen
  simp only [List.length_append] at hlen
  unfold readExact
  rw [if_pos (by omega), hd, List.take_left' hl]

theorem readFHeader_spec (bytes t : List Nat) (pos w h off : Nat)
    (hoff : off < 4294967296)
    (hd : bytes.drop pos = fhBytes w h off ++ t) :
    readFHeader bytes pos = .ok (⟨0, 0, w % 65536, h % 65536, 0, off⟩, pos + 24) := by
  simp only [fhBytes, u16le, u32le, List.cons_append, List.nil_append, Nat.zero_mod,
    Nat.zero_div] at hd
  have d2 : bytes.drop (pos + 2) = 0 :: 0 :: w % 256 :: w / 256 % 256 :: h % 256 ::
      h / 256 % 256 :: 0 :: 0 :: 0 :: 0 :: 0 :: 0 :: 0 :: 0 :: 0 :: 0 :: 0 :: 0 ::
      off % 256 :: off / 256 % 256 :: off / 65536 % 256 :: off / 16777216 % 256 :: t := by
    exact (drop_shift bytes _ pos 2 hd).trans rfl
  have d4 : bytes.drop (pos + 4) = w % 256 :: w / 256 % 256 :: h % 256 ::
      h / 256 % 256 :: 0 :: 0 :: 0 :: 0 :: 0 :: 0 :: 0 :: 0 :: 0 :: 0 :: 0 :: 0 ::
      off % 256 :: off / 256 % 256 :: off / 65536 % 256 :: off / 16777216 % 256 :: t := by
    exact (drop_shift bytes _ pos 4 hd).trans rfl
  have d6 : bytes.drop (pos + 6) = h % 256 :: h / 256 % 256 :: 0 :: 0 :: 0 :: 0 :: 0 ::
      0 :: 0 :: 0 :: 0 :: 0 :: 0 :: 0 ::
      off % 256 :: off / 256 % 256 :: off / 65536 % 256 :: off / 16777216 % 256 :: t := by
    exact (drop_shift bytes _ pos 6 hd).trans rfl
  have d8 : bytes.drop (pos + 8) = 0 :: 0 :: 0 :: 0 :: 0 :: 0 :: 0 :: 0 :: 0 :: 0 :: 0 :: 0 ::
      off % 256 :: off / 256 % 256 :: off / 65536 % 256 :: off / 16777216 % 256 :: t := by
    exact (drop_shift bytes _ pos 8 hd).trans rfl
  have d12 : bytes.drop (pos + 12) = [0, 0, 0, 0] ++ (0 :: 0 :: 0 :: 0 ::
      off % 256 :: off / 256 % 256 :: off / 65536 % 256 :: off / 16777216 % 256 :: t) := by
    exact (drop_shift bytes _ pos 12 hd).trans rfl
  have d16 : bytes.drop (pos + 16) = 0 :: 0 :: 0 :: 0 ::
      off % 256 :: off / 256 % 256 :: off / 65536 % 256 :: off / 16777216 % 256 :: t := by
    exact (drop_shift bytes _ pos 16 hd).trans rfl
  have d20 : bytes.drop (pos + 20) =
      off % 256 :: off / 256 % 256 :: off / 65536 % 256 :: off / 16777216 % 256 :: t := by
    exact (drop_shift bytes _ pos 20 hd).trans rfl
  unfold readFHeader
  rw [readU16_drop _ _ _ _ _ hd]
  simp only [exceptOkBind]
  rw [readU16_drop _ _ _ _ _ d2]
  simp only [exceptOkBind]
  rw [readU16_drop _ _ _ _ _ d4]
  simp only [exceptOkBind]
  rw [readU16_drop _ _ _ _ _ d6]
  simp only [exceptOkBind]
  rw [readU32_drop _ _ _ _ _ _ _ d8]
  simp only [exceptOkBind]
  rw [readExact_drop _ _ _ _ 4 (by omega) d12 rfl]
  simp only [exceptOkBind]
  rw [readU32_drop _ _ _ _ _ _ _ d16]
  simp only [exceptOkBind]
  rw [readU32_drop _ _ _ _ _ _ _ d20]
  simp only [exceptOkBind, exceptPure]
  have hw2 : w % 256 + 256 * (w / 256 % 256) = w % 65536 := by omega
  have hh2 : h % 256 + 256 * (h / 256 % 256) = h % 65536 := by omega
  have ho2 : off % 256 + 256 * (off / 256 % 256) + 65536 * (off / 65536 % 256)
      + 16777216 * (off / 16777216 % 256) = off := u32_recompose off hoff
  rw [hw2, hh2, ho2]

theorem fhBytes_length (w h off : Nat) : (fhBytes w h off).length = 24 := rfl

theorem readFHeaders_spec (bytes : List Nat) (w h : Nat) :
    ∀ (offs : List Nat) (pos : Nat) (t : List Nat),
      (∀ o, o ∈ offs → o < 4294967296) →
      bytes.drop pos = (offs.flatMap fun off => fhBytes w h off) ++ t →
      readFHeaders bytes offs.length pos
        = .ok (offs.map fun off => (⟨0, 0, w % 65536, h % 65536, 0, off⟩ : FHeader),
            pos + 24 * offs.length) := by
  intro offs
  induction offs with
  | nil =>
    intro pos t _ _
    simp [readFHeaders]
  | cons o rest ih =>
    intro pos t ho hd
    rw [List.flatMap_cons, List.append_assoc] at hd
    have h1 := readFHeader_spec bytes _ pos w h o (ho o (List.mem_cons_self o rest)) hd
    have d24 : bytes.drop (pos + 24) = (rest.flatMap fun off => fhBytes w h off) ++ t := by
      rw [drop_shift bytes _ pos 24 hd, List.drop_left' (fhBytes_length w h o)]
    rw [show (o :: rest).length = rest.length + 1 from rfl, readFHeaders, h1]
    simp only [exceptOkBind]
    rw [ih (pos + 24) t (fun o2 ho2 => ho o2 (List.mem_cons_of_mem o ho2)) d24]
    simp only [exceptOkBind, exceptPure, List.map_cons]
    have harith : pos + 24 + 24 * rest.length = pos + 24 * (rest.length + 1) := by ring
    rw [harith]

theorem flatMap_range_rows (g : Nat → Nat) (w : Nat) :
    ∀ h, ((List.range h).flatMap fun y => (List.range w).map fun x => g (y * w + x))
      = (List.range (h * w)).map g := by
  intro h
  induction h with
  | zero => simp
  | succ h ih =>
    rw [List.range_succ, List.flatMap_append, ih]
    have e1 : (h + 1) * w = h * w + w := by ring
    rw [e1, List.range_add, List.map_append, List.map_map]
    congr 1
    simp [Function.comp]

theorem map_range_getD (l : List Nat) (n : Nat) (hl : l.length = n) :
    (List.range n).map (fun i => l.getD i 0) = l := by
  apply List.ext_getElem
  · simp [hl]
  · intro i h1 h2
    simp only [List.getElem_map, List.getElem_range]
    rw [getD_of_lt _ _ _ (by omega), List.get_eq_getElem]

theorem frameBlock_eq (w h : Nat) (l : List Nat) (hl : l.length = w * h) :
    frameBlock w h l = l := by
  unfold frameBlock
  rw [flatMap_range_rows (fun i => l.getD i 0) w h]
  apply map_range_getD
  rw [hl, Nat.mul_comm]

theorem row_index_lt (w h x y : Nat) (hx : x < w) (hy : y < h) : y * w + x < w * h := by
  calc y * w + x < y * w + w := by omega
    _ = (y + 1) * w := by ring
    _ ≤ h * w := Nat.mul_le_mul_right w hy
    _ = w * h := Nat.mul_comm h w

theorem writeRow_full (w h y : Nat) (hy : y < h) :
    ∀ (row : List Nat) (x : Nat) (cur : List Nat),
      x + row.length ≤ w → cur.length = w * h →
      writeRow w h y row x cur
        = cur.take (y * w + x) ++ row ++ cur.drop (y * w + x + row.length) := by
  intro row
  induction row with
  | nil =>
    intro x cur hx hc
    simp [writeRow]
  | cons v vs ih =>
    intro x cur hx hc
    simp only [List.length_cons] at hx
    rw [writeRow]
    have hxw : x < w := by omega
    rw [if_pos ⟨hxw, hy⟩]
    have hidx : y * w + x < cur.length := by
      rw [hc]
      exact row_index_lt w h x y hxw hy
    rw [ih (x + 1) (cur.set (y * w + x) v) (by omega)
      (by rw [List.length_set]; exact hc)]
    rw [List.set_eq_take_cons_drop v hidx]
    have hTlen : (cur.take (y * w + x)).length = y * w + x := by
      rw [List.length_take]
      omega
    have e1 : (cur.take (y * w + x) ++ v :: cur.drop (y * w + x + 1)).take (y * w + (x + 1))
        = cur.take (y * w + x) ++ [v] := by
      have e0 : y * w + (x + 1) = (cur.take (y * w + x)).length + 1 := by
        rw [hTlen]
        ring
      rw [e0, take_append_add]
      rfl
    have e2 : (cur.take (y * w + x) ++ v :: cur.drop (y * w + x + 1)).drop
          (y * w + (x + 1) + vs.length)
        = cur.drop (y * w + x + (vs.length + 1)) := by
      have e0 : y * w + (x + 1) + vs.length = (cur.take (y * w + x)).length + (vs.length + 1) := by
        rw [hTlen]
        ring
      rw [e0, drop_append_add, List.drop_succ_cons, List.drop_drop]
      congr 1
      ring
    rw [e1, e2]
    simp [List.append_assoc]

theorem uncompRows_decode (slice target t : List Nat) (w h : Nat) (hw : 0 < w)
    (hsl : slice = target ++ t) (htl : target.length = w * h) :
    ∀ (rows y : Nat) (cur : List Nat), y + rows = h → cur.length = w * h →
      uncompRows slice w h 0 w (y * w) rows y cur
        = .ok (cur.take (y * w) ++ target.drop (y * w)) := by
  intro rows
  induction rows with
  | zero =>
    intro y cur hy hc
    have hyh : y = h := by omega
    have hmc : y * w = w * h := by
      rw [hyh]
      exact Nat.mul_comm h w
    rw [uncompRows, List.take_of_length_le (by omega), List.drop_eq_nil_of_le (by omega),
      List.append_nil]
  | succ rows ih =>
    intro y cur hy hc
    have hyh : y < h := by omega
    have hmc : h * w = w * h := Nat.mul_comm h w
    have hstep : (y + 1) * w = y * w + w := by ring
    have hylesswh : (y + 1) * w ≤ h * w := Nat.mul_le_mul_right w (by omega)
    rw [uncompRows]
    have hrowlen : ((target.drop (y * w)).take w).length = w := by
      rw [List.length_take, List.length_drop, htl]
      omega
    have hread : readExact slice (y * w) w
        = .ok ((target.drop (y * w)).take w, y * w + w) := by
      apply readExact_drop slice _ ((target.drop (y * w)).drop w ++ t) (y * w) w hw _ hrowlen
      rw [hsl, drop_append_le _ _ _ (by omega)]
      rw [← List.append_assoc, List.take_append_drop]
    rw [hread]
    simp only [exceptOkBind]
    have hwr := writeRow_full w h y hyh ((target.drop (y * w)).take w) 0 cur
      (by rw [hrowlen]; omega) hc
    simp only [Nat.add_zero, hrowlen] at hwr
    rw [hwr]
    have hc2 : (cur.take (y * w) ++ (target.drop (y * w)).take w
        ++ cur.drop (y * w + w)).length = w * h := by
      simp only [List.length_append, List.length_take, List.length_drop, hrowlen, hc]
      omega
    have e1 : y * w + w = (y + 1) * w := by ring
    rw [e1]
    rw [e1] at hc2
    rw [ih (y + 1) _ (by omega) hc2]
    have eT : (cur.take (y * w) ++ (target.drop (y * w)).take w
          ++ cur.drop ((y + 1) * w)).take ((y + 1) * w)
        = cur.take (y * w) ++ (target.drop (y * w)).take w := by
      rw [List.append_assoc]
      have e0 : (y + 1) * w = (cur.take (y * w)).length + w := by
        rw [List.length_take]
        omega
      rw [e0, take_append_add, take_append_le _ _ _ hrowlen.ge, List.take_take]
      simp
    have eD : target.drop (y * w) = (target.drop (y * w)).take w ++ target.drop ((y + 1) * w) := by
      have e3 : (y + 1) * w = y * w + w := by ring
      rw [e3, ← List.drop_drop]
      exact (List.take_append_drop w (target.drop (y * w))).symm
    rw [eT]
    conv_rhs => rw [eD]
    rw [List.append_assoc]

theorem computeOffsets_length :
    ∀ (l : List (List Nat)) (c : Nat), (computeOffsets l c).length = l.length := by
  intro l
  induction l with
  | nil => intro c; rfl
  | cons px rest ih =>
    intro c
    unfold computeOffsets
    by_cases hz : px.all (· = 0) <;> simp [hz, ih]

theorem computeOffsets_lt :
    ∀ (l : List (List Nat)) (c : Nat), c ≤ 4294967295 →
      ∀ o, o ∈ computeOffsets l c → o < 4294967296 := by
  intro l
  induction l with
  | nil =>
    intro c hc o ho
    simp [computeOffsets] at ho
  | cons px rest ih =>
    intro c hc o ho
    unfold computeOffsets at ho
    by_cases hz : px.all (· = 0)
    · rw [if_pos hz] at ho
      rcases List.mem_cons.mp ho with h0 | h0
      · omega
      · exact ih c hc o h0
    · rw [if_neg hz] at ho
      rcases List.mem_cons.mp ho with h0 | h0
      · omega
      · exact ih _ (by omega) o h0

/-- Number of frames that emit a data block. -/
def nonEmptyCount : List (List Nat) → Nat
  | [] => 0
  | px :: rest => (if px.all (· = 0) then 0 else 1) + nonEmptyCount rest

theorem all_zero_replicate (px : List Nat) (n : Nat) (hz : px.all (· = 0)) (hl : px.length = n) :
    List.replicate n 0 = px := by
  symm
  rw [List.eq_replicate_iff]
  simp only [List.all_eq_true, decide_eq_true_eq] at hz
  exact ⟨hl, hz⟩

/-- The data region `SHP::save` writes (offset-0 blocks are skipped)
equals the concatenation of the non-all-zero blocks. -/
theorem dataRegion_eq :
    ∀ (pxls : List (List Nat)) (cursor : Nat), 0 < cursor →
      ((pxls.zip (computeOffsets pxls cursor)).flatMap fun p => if p.2 = 0 then [] else p.1)
        = pxls.flatMap fun px => if px.all (· = 0) then [] else px := by
  intro pxls
  induction pxls with
  | nil => intro cursor h0; rfl
  | cons px rest ih =>
    intro cursor h0
    unfold computeOffsets
    by_cases hz : px.all (· = 0)
    · rw [if_pos hz]
      simp only [List.zip_cons_cons, List.flatMap_cons, if_pos rfl, if_pos hz,
        List.nil_append]
      exact ih cursor h0
    · rw [if_neg hz]
      simp only [List.zip_cons_cons, List.flatMap_cons, if_neg (by omega : ¬cursor = 0),
        if_neg hz]
      congr 1
      exact ih _ (by omega)

theorem decodeFrame_zero_off (bytes : List Nat) (w h : Nat) :
    decodeFrame bytes w h ⟨0, 0, w, h, 0, 0⟩ = .ok (List.replicate (w * h) 0) := by
  unfold decodeFrame
  rw [if_pos (Or.inl rfl)]

theorem decodeFrame_uncomp (bytes : List Nat) (w h cursor : Nat) (px rest : List Nat)
    (hw : 0 < w) (hh : 0 < h) (hc8 : 8 ≤ cursor)
    (hpx : px.length = w * h)
    (hd : bytes.drop cursor = px ++ rest) :
    decodeFrame bytes w h ⟨0, 0, w, h, 0, cursor⟩ = .ok px := by
  have hwh : 0 < w * h := Nat.mul_pos hw hh
  have hlt : cursor < bytes.length := by
    have hlen : (bytes.drop cursor).length = bytes.length - cursor := List.length_drop ..
    rw [hd] at hlen
    simp only [List.length_append, hpx] at hlen
    omega
  simp only [decodeFrame]
  rw [if_neg (by omega), if_neg (by omega), if_neg (by decide), if_neg (by decide)]
  have hrows := uncompRows_decode (bytes.drop cursor) px rest w h hw hd hpx h 0
    (List.replicate (w * h) 0) (by omega) (by simp)
  simp only [Nat.zero_mul, List.take_zero, List.drop_zero, List.nil_append] at hrows
  exact hrows

/-- Decoding the frame headers `SHP::save` writes, against the offsets it
computed, reproduces the original frame buffers. -/
theorem decodeFrames_save (bytes : List Nat) (w h : Nat) (hw : 0 < w) (hh : 0 < h) :
    ∀ (pxls : List (List Nat)) (cursor : Nat),
      (∀ px, px ∈ pxls → px.length = w * h) →
      8 ≤ cursor →
      cursor + nonEmptyCount pxls * (w * h) ≤ 4294967295 →
      bytes.drop cursor = (pxls.flatMap fun px => if px.all (· = 0) then [] else px) →
      decodeFrames bytes w h
          ((computeOffsets pxls cursor).map fun off => (⟨0, 0, w, h, 0, off⟩ : FHeader))
        = .ok (pxls.map Frame.mk) := by
  intro pxls
  induction pxls with
  | nil =>
    intro cursor _ _ _ _
    rfl
  | cons px rest ih =>
    intro cursor hinv hc8 hbudget hd
    have hpx : px.length = w * h := hinv px (List.mem_cons_self px rest)
    have hinvr : ∀ q, q ∈ rest → q.length = w * h :=
      fun q hq => hinv q (List.mem_cons_of_mem px hq)
    rw [List.flatMap_cons] at hd
    unfold computeOffsets
    by_cases hz : px.all (· = 0)
    · rw [if_pos hz]
      rw [if_pos hz, List.nil_append] at hd
      simp only [List.map_cons, decodeFrames, decodeFrame_zero_off, exceptOkBind]
      rw [ih cursor hinvr hc8 (by
        unfold nonEmptyCount at hbudget
        rw [if_pos hz, Nat.zero_add] at hbudget
        exact hbudget) hd]
      simp only [exceptOkBind, exceptPure]
      rw [all_zero_replicate px (w * h) hz hpx]
    · rw [if_neg hz]
      rw [if_neg hz] at hd
      have hbudget2 : cursor + (w * h) + nonEmptyCount rest * (w * h) ≤ 4294967295 := by
        unfold nonEmptyCount at hbudget
        rw [if_neg hz] at hbudget
        have e1 : (1 + nonEmptyCount rest) * (w * h)
            = w * h + nonEmptyCount rest * (w * h) := by ring
        omega
      have hcur2 : min (cursor + px.length % 4294967296) 4294967295 = cursor + w * h := by
        rw [hpx, Nat.mod_eq_of_lt (by omega)]
        omega
      rw [hcur2]
      simp only [List.map_cons, decodeFrames]
      rw [decodeFrame_uncomp bytes w h cursor px
        (rest.flatMap fun q => if q.all (· = 0) then [] else q) hw hh hc8 hpx hd]
      simp only [exceptOkBind]
      have hd2 : bytes.drop (cursor + w * h)
          = rest.flatMap fun q => if q.all (· = 0) then [] else q := by
        rw [drop_shift bytes _ cursor (w * h) hd, ← hpx, List.drop_left]
      rw [ih (cursor + w * h) hinvr (by omega) (by omega) hd2]
      simp only [exceptOkBind, exceptPure]

theorem length_flatMap_fhBytes (w h : Nat) :
    ∀ offs : List Nat, (offs.flatMap fun off => fhBytes w h off).length = 24 * offs.length := by
  intro offs
  induction offs with
  | nil => rfl
  | cons o rest ih =>
    rw [List.flatMap_cons, List.length_append, ih, fhBytes_length, List.length_cons]
    ring

theorem nonEmptyCount_le_length : ∀ l : List (List Nat), nonEmptyCount l ≤ l.length := by
  intro l
  induction l with
  | nil => exact Nat.le_refl 0
  | cons px rest ih =>
    unfold nonEmptyCount
    by_cases hz : px.all (· = 0) <;> simp [hz] <;> omega

/-- C1 as amended.  For every sprite with at least one frame, positive
dimensions, dimensions and frame count in u16 range, every frame buffer
of exactly width*height bytes, and total encoded size
`8 + 24*frames + frames*(width*height)` within u32 range, `save`
succeeds and `load` of the saved bytes returns a sprite equal to the
original: same width, same height, same frame count, and per-frame pixel
buffers byte-for-byte identical.  The size bound is the amendment, and it
is not vacuous territory: the blank constructor accepts canvases and
frame counts that exceed it, and there the round-trip fails, because the
u32 data-offset cursor of `save` advances by saturating addition and
stores `u32::MAX` instead of the true data position for every
non-background frame past the saturation point (see
the counterexample below at a 4096-by-4096, 300-frame sprite). -/
theorem save_load_roundtrip (s : SHP)
    (hne : s.frames ≠ [])
    (hw : 0 < s.width) (hh : 0 < s.height)
    (hw16 : s.width < 65536) (hh16 : s.height < 65536)
    (hn16 : s.frames.length < 65536)
    (hinv : ∀ f, f ∈ s.frames → f.pixels.length = s.width * s.height)
    (hsize : 8 + 24 * s.frames.length + s.frames.length * (s.width * s.height) ≤ 4294967295) :
    SHP.save s = .ok (saveBytes s) ∧ SHP.load (saveBytes s) = .ok s := by
  have hnpos : 0 < s.frames.length := List.length_pos.mpr hne
  constructor
  · unfold SHP.save
    rw [if_neg (by simp [List.isEmpty_iff, hne])]
  · have hinvP : ∀ px, px ∈ s.frames.map (fun f => f.pixels) →
        px.length = s.width * s.height := by
      intro px hpx
      obtain ⟨f, hf, hfx⟩ := List.mem_map.mp hpx
      rw [← hfx]
      exact hinv f hf
    have hblocks : (s.frames.map fun f => frameBlock s.width s.height f.pixels)
        = s.frames.map fun f => f.pixels := by
      apply List.map_congr_left
      intro f hf
      exact frameBlock_eq _ _ _ (hinv f hf)
    have hmod : (8 + 24 * s.frames.length) % 4294967296 = 8 + 24 * s.frames.length :=
      Nat.mod_eq_of_lt (by omega)
    have hsb : saveBytes s = 0 :: 0 :: s.width % 256 :: s.width / 256 % 256
        :: s.height % 256 :: s.height / 256 % 256
        :: s.frames.length % 256 :: s.frames.length / 256 % 256
        :: (((computeOffsets (s.frames.map fun f => f.pixels)
              (8 + 24 * s.frames.length)).flatMap fun off => fhBytes s.width s.height off)
          ++ (((s.frames.map fun f => f.pixels).zip
                (computeOffsets (s.frames.map fun f => f.pixels)
                  (8 + 24 * s.frames.length))).flatMap
              fun p => if p.2 = 0 then [] else p.1)) := by
      simp only [saveBytes]
      rw [hblocks, hmod]
      simp [u16le, List.append_assoc]
    set pxls := s.frames.map fun f => f.pixels with hpxls
    set offs := computeOffsets pxls (8 + 24 * s.frames.length) with hoffs
    set fhreg := offs.flatMap fun off => fhBytes s.width s.height off with hfhreg
    set dreg := (pxls.zip offs).flatMap fun p => if p.2 = 0 then [] else p.1 with hdreg
    have hoffslen : offs.length = s.frames.length := by
      rw [hoffs, computeOffsets_length, hpxls, List.length_map]
    have hlen_fhreg : fhreg.length = 24 * s.frames.length := by
      rw [hfhreg, length_flatMap_fhBytes, hoffslen]
    have d0 : (saveBytes s).drop 0 = 0 :: 0 :: s.width % 256 :: s.width / 256 % 256
        :: s.height % 256 :: s.height / 256 % 256
        :: s.frames.length % 256 :: s.frames.length / 256 % 256 :: (fhreg ++ dreg) := by
      rw [List.drop_zero]
      exact hsb
    have d2 : (saveBytes s).drop (0 + 2) = s.width % 256 :: s.width / 256 % 256
        :: s.height % 256 :: s.height / 256 % 256
        :: s.frames.length % 256 :: s.frames.length / 256 % 256 :: (fhreg ++ dreg) :=
      (drop_shift _ _ 0 2 d0).trans rfl
    have d4 : (saveBytes s).drop (0 + 2 + 2) = s.height % 256 :: s.height / 256 % 256
        :: s.frames.length % 256 :: s.frames.length / 256 % 256 :: (fhreg ++ dreg) :=
      (drop_shift _ _ (0 + 2) 2 d2).trans rfl
    have d6 : (saveBytes s).drop (0 + 2 + 2 + 2)
        = s.frames.length % 256 :: s.frames.length / 256 % 256 :: (fhreg ++ dreg) :=
      (drop_shift _ _ (0 + 2 + 2) 2 d4).trans rfl
    have d8 : (saveBytes s).drop (0 + 2 + 2 + 2 + 2) = fhreg ++ dreg :=
      (drop_shift _ _ (0 + 2 + 2 + 2) 2 d6).trans rfl
    have d8b : (saveBytes s).drop 8 = fhreg ++ dreg := d8
    have hlen8 : ¬((saveBytes s).length < 8) := by
      rw [hsb]
      simp only [List.length_cons]
      omega
    unfold SHP.load
    rw [if_neg hlen8]
    rw [readU16_drop _ _ _ _ _ d0]
    simp only [exceptOkBind]
    rw [if_neg (by simp)]
    simp only [exceptPure, exceptOkBind]
    rw [readU16_drop _ _ _ _ _ d2, u16_recompose s.width hw16]
    simp only [exceptOkBind]
    rw [readU16_drop _ _ _ _ _ d4, u16_recompose s.height hh16]
    simp only [exceptOkBind]
    rw [readU16_drop _ _ _ _ _ d6, u16_recompose s.frames.length hn16]
    simp only [exceptOkBind]
    rw [if_neg (by omega)]
    try simp only [exceptPure, exceptOkBind]
    rw [← hoffslen]
    rw [readFHeaders_spec (saveBytes s) s.width s.height offs (0 + 2 + 2 + 2 + 2) dreg
      (by
        intro o ho
        rw [hoffs] at ho
        exact computeOffsets_lt pxls (8 + 24 * s.frames.length) (by omega) o ho)
      (by rw [d8, hfhreg])]
    simp only [exceptOkBind]
    rw [Nat.mod_eq_of_lt hw16, Nat.mod_eq_of_lt hh16]
    have hdata : (saveBytes s).drop (8 + 24 * s.frames.length)
        = pxls.flatMap fun px => if px.all (· = 0) then [] else px := by
      rw [drop_shift _ _ 8 (24 * s.frames.length) d8b,
        List.drop_left' hlen_fhreg, hdreg, hpxls]
      rw [← hpxls]
      exact dataRegion_eq pxls (8 + 24 * s.frames.length) (by omega)
    have hbudget : 8 + 24 * s.frames.length
        + nonEmptyCount pxls * (s.width * s.height) ≤ 4294967295 := by
      have h1 : nonEmptyCount pxls ≤ pxls.length := nonEmptyCount_le_length pxls
      have h2 : pxls.length = s.frames.length := by rw [hpxls, List.length_map]
      have h3 : nonEmptyCount pxls * (s.width * s.height)
          ≤ s.frames.length * (s.width * s.height) :=
        Nat.mul_le_mul_right _ (by omega)
      omega
    rw [hoffs]
    rw [decodeFrames_save (saveBytes s) s.width s.height hw hh pxls
      (8 + 24 * s.frames.length) hinvP (by omega) hbudget hdata]
    simp only [exceptOkBind, exceptPure]
    have hframes : pxls.map Frame.mk = s.frames := by
      rw [hpxls, List.map_map]
      have hcomp : (Frame.mk ∘ fun f : Frame => f.pixels) = id := funext fun f => rfl
      rw [hcomp, List.map_id]
    rw [hframes]

/-- Witness for C1: a concrete 2-by-1, one-frame sprite (one background
pixel, one painted pixel) round-trips. -/
theorem save_load_roundtrip_witness :
    SHP.save ⟨2, 1, [⟨[0, 5]⟩]⟩ = .ok (saveBytes ⟨2, 1, [⟨[0, 5]⟩]⟩)
    ∧ SHP.load (saveBytes ⟨2, 1, [⟨[0, 5]⟩]⟩) = .ok ⟨2, 1, [⟨[0, 5]⟩]⟩ :=
  save_load_roundtrip ⟨2, 1, [⟨[0, 5]⟩]⟩ (by decide) (by decide) (by decide) (by decide)
    (by decide) (by decide) (by decide) (by decide)

/-! ## C1 beyond the u32 budget: offset-cursor saturation -/

/-- A solid color-1 buffer filling a 4096-by-4096 canvas. -/
def cexB1 : List Nat := List.replicate 16777216 1

/-- A solid color-2 buffer filling a 4096-by-4096 canvas. -/
def cexB2 : List Nat := List.replicate 16777216 2

/-- A 4096-by-4096, 300-frame sprite, inside the new-sprite dialog limits
(each dimension at most 4096, at most 20000 frames) and reachable from
the blank constructor by painting every pixel: 299 solid color-1 frames
and a final solid color-2 frame.  Its encoded size
`8 + 24*300 + 300*16777216 = 5033172008` exceeds `u32::MAX`. -/
def cexC1 : SHP := ⟨4096, 4096, List.replicate 299 ⟨cexB1⟩ ++ [⟨cexB2⟩]⟩

/-- The pixel buffers of `cexC1`'s frames. -/
def cexPxls : List (List Nat) := List.replicate 299 cexB1 ++ [cexB2]

/-- The data offsets `SHP::save` computes for `cexC1`: exact for the
first 256 frames, saturated at `u32::MAX` from frame 257 on. -/
def cexOffs : List Nat :=
  (List.range 300).map fun i => min (7208 + i * 16777216) 4294967295

/-- The frame-header region `SHP::save` writes for `cexC1`. -/
def cexFhreg : List Nat := cexOffs.flatMap fun off => fhBytes 4096 4096 off

/-- The data region `SHP::save` writes for `cexC1`: 299 solid color-1
blocks (`299 * 16777216 = 5016387584` bytes) then one solid color-2
block. -/
def cexDreg : List Nat :=
  List.replicate 5016387584 1 ++ List.replicate 16777216 2

theorem drop_replicate_eq {α : Type} (v : α) :
    ∀ (k n : Nat), (List.replicate n v).drop k = List.replicate (n - k) v := by
  intro k
  induction k with
  | zero => intro n; simp
  | succ m ih =>
    intro n
    cases n with
    | zero => simp
    | succ n2 =>
      rw [List.replicate_succ, List.drop_succ_cons, ih n2]
      congr 1
      omega

/-- Closed form of the saturating offset cursor over uniformly sized,
non-background blocks: offset `i` is `min (c + i * blockLen) u32::MAX`
(specialized to the 4096-by-4096 block length). -/
theorem computeOffsets_uniform :
    ∀ (blks : List (List Nat)) (c : Nat), c ≤ 4294967295 →
      (∀ b, b ∈ blks → b.length = 16777216 ∧ b.all (· = 0) = false) →
      computeOffsets blks c
        = (List.range blks.length).map fun i => min (c + i * 16777216) 4294967295 := by
  intro blks
  induction blks with
  | nil => intro c _ _; rfl
  | cons b rest ih =>
    intro c hc hall
    obtain ⟨hlen, hnz⟩ := hall b (List.mem_cons_self b rest)
    unfold computeOffsets
    rw [if_neg (by simp [hnz]), hlen]
    rw [show (16777216 : Nat) % 4294967296 = 16777216 from by norm_num]
    rw [ih (min (c + 16777216) 4294967295) (Nat.min_le_right _ _)
      (fun b2 hb2 => hall b2 (List.mem_cons_of_mem b hb2))]
    rw [List.length_cons, List.range_succ_eq_map, List.map_cons, List.map_map]
    have hhead : min (c + 0 * 16777216) 4294967295 = c := by omega
    have htail : (List.range rest.length).map
        ((fun i => min (c + i * 16777216) 4294967295) ∘ Nat.succ)
        = (List.range rest.length).map
          (fun i => min (min (c + 16777216) 4294967295 + i * 16777216) 4294967295) := by
      apply List.map_congr_left
      intro i _
      simp only [Function.comp]
      omega
    rw [hhead, htail]

/-- When no block is all-background, the saved data region is the plain
concatenation of the blocks. -/
theorem flatMap_nonzero_blocks :
    ∀ blks : List (List Nat), (∀ b, b ∈ blks → b.all (· = 0) = false) →
      (blks.flatMap fun px => if px.all (· = 0) then [] else px) = blks.flatten := by
  intro blks
  induction blks with
  | nil => intro _; rfl
  | cons b rest ih =>
    intro hall
    rw [List.flatMap_cons, List.flatten_cons,
      if_neg (by simp [hall b (List.mem_cons_self b rest)]),
      ih fun b2 hb2 => hall b2 (List.mem_cons_of_mem b hb2)]

/-- If every frame header in a list decodes to the same buffer, the frame
loop returns that buffer once per header. -/
theorem decodeFrames_all_same (bytes : List Nat) (w h : Nat) (out : List Nat) :
    ∀ fhs : List FHeader, (∀ fh, fh ∈ fhs → decodeFrame bytes w h fh = .ok out) →
      decodeFrames bytes w h fhs = .ok (List.replicate fhs.length ⟨out⟩) := by
  intro fhs
  induction fhs with
  | nil => intro _; rfl
  | cons fh rest ih =>
    intro hall
    simp only [decodeFrames]
    rw [hall fh (List.mem_cons_self fh rest)]
    simp only [exceptOkBind]
    rw [ih fun fh2 hfh2 => hall fh2 (List.mem_cons_of_mem fh hfh2)]
    simp only [exceptOkBind, exceptPure, List.length_cons, List.replicate_succ]

theorem length_cons8_ge (t : List Nat) (a b c d e f g h : Nat) :
    ¬((a :: b :: c :: d :: e :: f :: g :: h :: t).length < 8) := by
  simp only [List.length_cons]
  omega

/-- `SHP::load` on any buffer shaped like the saved counterexample —
marker 0, dimensions 4096 by 4096, 300 frame headers whose frames all
decode to the same solid buffer — succeeds with 300 copies of that
buffer. -/
theorem cex_load_trace (B fhreg dreg : List Nat) (offs : List Nat)
    (hsb : B = 0 :: 0 :: 0 :: 16 :: 0 :: 16 :: 44 :: 1 :: (fhreg ++ dreg))
    (hfhreg : fhreg = offs.flatMap fun off => fhBytes 4096 4096 off)
    (hofflen : offs.length = 300)
    (holt : ∀ o, o ∈ offs → o < 4294967296)
    (hframe : ∀ fh, fh ∈ offs.map (fun off => (⟨0, 0, 4096, 4096, 0, off⟩ : FHeader)) →
      decodeFrame B 4096 4096 fh = .ok (List.replicate 16777216 1)) :
    SHP.load B = .ok ⟨4096, 4096, List.replicate 300 ⟨List.replicate 16777216 1⟩⟩ := by
  have d0 : B.drop 0 = 0 :: 0 :: 0 :: 16 :: 0 :: 16 :: 44 :: 1 :: (fhreg ++ dreg) := by
    rw [List.drop_zero]
    exact hsb
  have d2 : B.drop (0 + 2) = 0 :: 16 :: 0 :: 16 :: 44 :: 1 :: (fhreg ++ dreg) :=
    (drop_shift _ _ 0 2 d0).trans rfl
  have d4 : B.drop (0 + 2 + 2) = 0 :: 16 :: 44 :: 1 :: (fhreg ++ dreg) :=
    (drop_shift _ _ (0 + 2) 2 d2).trans rfl
  have d6 : B.drop (0 + 2 + 2 + 2) = 44 :: 1 :: (fhreg ++ dreg) :=
    (drop_shift _ _ (0 + 2 + 2) 2 d4).trans rfl
  have d8 : B.drop (0 + 2 + 2 + 2 + 2) = fhreg ++ dreg :=
    (drop_shift _ _ (0 + 2 + 2 + 2) 2 d6).trans rfl
  have hlen8 : ¬(B.length < 8) := by
    rw [hsb]
    exact length_cons8_ge _ _ _ _ _ _ _ _ _
  unfold SHP.load
  rw [if_neg hlen8]
  rw [readU16_drop _ _ _ _ _ d0]
  simp only [exceptOkBind]
  rw [if_neg (by simp)]
  simp only [exceptPure, exceptOkBind]
  rw [readU16_drop _ _ _ _ _ d2]
  rw [show (0 : Nat) + 256 * 16 = 4096 from by norm_num]
  simp only [exceptOkBind]
  rw [readU16_drop _ _ _ _ _ d4]
  rw [show (0 : Nat) + 256 * 16 = 4096 from by norm_num]
  simp only [exceptOkBind]
  rw [readU16_drop _ _ _ _ _ d6]
  rw [show (44 : Nat) + 256 * 1 = 300 from by norm_num]
  simp only [exceptOkBind]
  rw [if_neg (by omega)]
  try simp only [exceptPure, exceptOkBind]
  rw [← hofflen]
  rw [readFHeaders_spec B 4096 4096 offs (0 + 2 + 2 + 2 + 2) dreg holt (by rw [d8, hfhreg])]
  simp only [exceptOkBind]
  simp only [show (4096 : Nat) % 65536 = 4096 from by norm_num]
  rw [decodeFrames_all_same B 4096 4096 (List.replicate 16777216 1) _ hframe]
  simp only [exceptOkBind, exceptPure, List.length_map, hofflen]

/-- Counterexample to C1 as stated: on `cexC1` — built from the blank
constructor by raster operations alone, inside the editor's new-sprite
dialog limits — `save` succeeds, but its saturating u32 cursor stores
offset 4294967295 for frames 257 through 300 instead of their true data
positions, and `load` then succeeds and silently decodes every one of
those frames from the wrong position: the decoded sprite has all 300
frames solid color 1, so the final frame, painted solid color 2, is not
reproduced and the round-trip law fails. -/
theorem save_load_roundtrip_cex :
    SHP.save cexC1 = .ok (saveBytes cexC1)
    ∧ SHP.load (saveBytes cexC1)
        = .ok ⟨4096, 4096, List.replicate 300 ⟨List.replicate 16777216 1⟩⟩
    ∧ SHP.load (saveBytes cexC1) ≠ .ok cexC1 := by
  have hmappx : cexC1.frames.map (fun f : Frame => f.pixels) = cexPxls := by
    show (List.replicate 299 (⟨cexB1⟩ : Frame) ++ [(⟨cexB2⟩ : Frame)]).map
        (fun f : Frame => f.pixels)
      = cexPxls
    rw [List.map_append, List.map_replicate]
    rfl
  have hB1nz : cexB1.all (· = 0) = false := by
    show (List.replicate 16777216 (1 : Nat)).all (· = 0) = false
    rw [List.all_replicate, if_neg (by omega)]
    rfl
  have hB2nz : cexB2.all (· = 0) = false := by
    show (List.replicate 16777216 (2 : Nat)).all (· = 0) = false
    rw [List.all_replicate, if_neg (by omega)]
    rfl
  have hpxlen : ∀ b, b ∈ cexPxls → b.length = 16777216 := by
    intro b hb
    rcases List.mem_append.mp hb with h1 | h1
    · rw [(List.mem_replicate.mp h1).2]
      exact List.length_replicate 16777216 1
    · rw [List.mem_singleton.mp h1]
      exact List.length_replicate 16777216 2
  have hpxnz : ∀ b, b ∈ cexPxls → b.all (· = 0) = false := by
    intro b hb
    rcases List.mem_append.mp hb with h1 | h1
    · rw [(List.mem_replicate.mp h1).2]
      exact hB1nz
    · rw [List.mem_singleton.mp h1]
      exact hB2nz
  have hinvc : ∀ f, f ∈ cexC1.frames → f.pixels.length = 4096 * 4096 := by
    intro f hf
    have hb : f.pixels ∈ cexPxls := by
      rw [← hmappx]
      exact List.mem_map_of_mem (fun g : Frame => g.pixels) hf
    rw [hpxlen f.pixels hb]
  have hwproj : cexC1.width = 4096 := rfl
  have hhproj : cexC1.height = 4096 := rfl
  have hn300 : cexC1.frames.length = 300 := by
    show (List.replicate 299 (⟨cexB1⟩ : Frame) ++ [(⟨cexB2⟩ : Frame)]).length = 300
    rw [List.length_append, List.length_replicate, List.length_cons, List.length_nil]
  have hblocks : (cexC1.frames.map fun f => frameBlock cexC1.width cexC1.height f.pixels)
      = cexPxls := by
    rw [← hmappx]
    apply List.map_congr_left
    intro f hf
    rw [hwproj, hhproj]
    exact frameBlock_eq _ _ _ (hinvc f hf)
  have hplen300 : cexPxls.length = 300 := by
    show (List.replicate 299 cexB1 ++ [cexB2]).length = 300
    rw [List.length_append, List.length_replicate, List.length_cons, List.length_nil]
  have hoffseq : computeOffsets cexPxls 7208 = cexOffs := by
    rw [computeOffsets_uniform cexPxls 7208 (by omega)
      (fun b hb => ⟨hpxlen b hb, hpxnz b hb⟩), hplen300]
    simp only [cexOffs]
  have hdregeq : ((cexPxls.zip cexOffs).flatMap fun p => if p.2 = 0 then [] else p.1)
      = cexDreg := by
    rw [← hoffseq, dataRegion_eq cexPxls 7208 (by omega), flatMap_nonzero_blocks cexPxls hpxnz]
    show (List.replicate 299 cexB1 ++ [cexB2]).flatten = cexDreg
    rw [List.flatten_append, show cexB1 = List.replicate 16777216 1 from rfl,
      List.flatten_replicate_replicate,
      show (299 * 16777216 : Nat) = 5016387584 from by norm_num,
      List.flatten_cons, List.flatten_nil, List.append_nil]
    rfl
  have hsb : saveBytes cexC1
      = 0 :: 0 :: 0 :: 16 :: 0 :: 16 :: 44 :: 1 :: (cexFhreg ++ cexDreg) := by
    simp only [saveBytes]
    rw [hblocks, hn300, hwproj, hhproj]
    rw [show (8 + 24 * 300) % 4294967296 = 7208 from by norm_num]
    rw [hoffseq, hdregeq]
    simp [u16le, cexFhreg, List.append_assoc]
  have hofflen : cexOffs.length = 300 := by simp [cexOffs]
  have hlen_fhreg : cexFhreg.length = 7200 := by
    simp only [cexFhreg]
    rw [length_flatMap_fhBytes, hofflen]
  have hgroup : saveBytes cexC1 = ([0, 0, 0, 16, 0, 16, 44, 1] ++ cexFhreg) ++ cexDreg := by
    rw [hsb]
    simp [List.append_assoc]
  have hplen : ([0, 0, 0, 16, 0, 16, 44, 1] ++ cexFhreg : List Nat).length = 7208 := by
    simp [hlen_fhreg]
  have hdropP : ∀ n : Nat, (saveBytes cexC1).drop (7208 + n) = cexDreg.drop n := by
    intro n
    rw [hgroup, ← hplen]
    exact drop_append_add _ _ n
  have hdreg_at : ∀ k : Nat, k + 16777216 ≤ 5016387584 →
      cexDreg.drop k
        = List.replicate 16777216 1
          ++ (List.replicate (5016387584 - k - 16777216) 1 ++ List.replicate 16777216 2) := by
    intro k hk
    simp only [cexDreg]
    rw [drop_append_le _ _ k (by simp only [List.length_replicate]; omega),
      drop_replicate_eq]
    have harith : 5016387584 - k = 16777216 + (5016387584 - k - 16777216) := by omega
    conv_lhs => rw [harith]
    rw [List.replicate_add, List.append_assoc]
  have hframe : ∀ fh : FHeader,
      fh ∈ cexOffs.map (fun off => (⟨0, 0, 4096, 4096, 0, off⟩ : FHeader)) →
      decodeFrame (saveBytes cexC1) 4096 4096 fh = .ok (List.replicate 16777216 1) := by
    intro fh hfh
    obtain ⟨off, hoffmem, hfheq⟩ := List.mem_map.mp hfh
    simp only [cexOffs] at hoffmem
    obtain ⟨i, hirange, hoffeq⟩ := List.mem_map.mp hoffmem
    have hi300 : i < 300 := List.mem_range.mp hirange
    subst hfheq
    subst hoffeq
    rcases Nat.lt_or_ge i 256 with hle | hge
    · have hmin : min (7208 + i * 16777216) 4294967295 = 7208 + i * 16777216 :=
        Nat.min_eq_left (by omega)
      rw [hmin]
      have hd := (hdropP (i * 16777216)).trans (hdreg_at (i * 16777216) (by omega))
      exact decodeFrame_uncomp (saveBytes cexC1) 4096 4096 (7208 + i * 16777216)
        (List.replicate 16777216 1) _ (by omega) (by omega) (by omega)
        (by rw [List.length_replicate]) hd
    · have hmin : min (7208 + i * 16777216) 4294967295 = 4294967295 :=
        Nat.min_eq_right (by omega)
      rw [hmin]
      have hd0 : (saveBytes cexC1).drop 4294967295 = cexDreg.drop 4294960087 := by
        have h1 := hdropP 4294960087
        rw [show 7208 + 4294960087 = 4294967295 from by norm_num] at h1
        exact h1
      have hd := hd0.trans (hdreg_at 4294960087 (by omega))
      exact decodeFrame_uncomp (saveBytes cexC1) 4096 4096 4294967295
        (List.replicate 16777216 1) _ (by omega) (by omega) (by omega)
        (by rw [List.length_replicate]) hd
  have holt : ∀ o, o ∈ cexOffs → o < 4294967296 := by
    intro o ho
    simp only [cexOffs] at ho
    obtain ⟨i, hi2, hoe⟩ := List.mem_map.mp ho
    omega
  have hload : SHP.load (saveBytes cexC1)
      = .ok ⟨4096, 4096, List.replicate 300 ⟨List.replicate 16777216 1⟩⟩ :=
    cex_load_trace (saveBytes cexC1) cexFhreg cexDreg cexOffs hsb rfl hofflen holt hframe
  have hne0 : cexC1.frames ≠ [] := by
    intro hcon
    exact List.cons_ne_nil _ _ (List.append_eq_nil.mp hcon).2
  refine ⟨?_, hload, ?_⟩
  · unfold SHP.save
    rw [if_neg (fun hcon => hne0 (List.isEmpty_iff.mp hcon))]
  · rw [hload]
    intro he
    have hs : (⟨4096, 4096, List.replicate 300 ⟨List.replicate 16777216 1⟩⟩ : SHP)
        = cexC1 := by
      injection he
    have hfr : List.replicate 300 (⟨List.replicate 16777216 1⟩ : Frame)
        = List.replicate 299 (⟨List.replicate 16777216 1⟩ : Frame)
          ++ [(⟨List.replicate 16777216 2⟩ : Frame)] :=
      congrArg SHP.frames hs
    have h1 : (List.replicate 300 (⟨List.replicate 16777216 1⟩ : Frame)).getD 299 ⟨[]⟩
        = ⟨List.replicate 16777216 1⟩ := by
      rw [getD_of_lt _ _ _ (by rw [List.length_replicate]; omega), List.get_eq_getElem,
        List.getElem_replicate]
    have h2 : (List.replicate 299 (⟨List.replicate 16777216 1⟩ : Frame)
          ++ [(⟨List.replicate 16777216 2⟩ : Frame)]).getD 299 ⟨[]⟩
        = ⟨List.replicate 16777216 2⟩ := by
      rw [getD_append_right _ _ _ _ (le_of_eq (List.length_replicate 299 _)),
        List.length_replicate, Nat.sub_self, List.getD_cons_zero]
    have hfe : (⟨List.replicate 16777216 1⟩ : Frame) = ⟨List.replicate 16777216 2⟩ := by
      rw [← h1, ← h2, hfr]
    have hl : List.replicate 16777216 (1 : Nat) = List.replicate 16777216 2 :=
      congrArg Frame.pixels hfe
    have e1 : (List.replicate 16777216 (1 : Nat)).getD 0 0 = 1 := by
      rw [getD_of_lt _ _ _ (by rw [List.length_replicate]; omega), List.get_eq_getElem,
        List.getElem_replicate]
    have e2 : (List.replicate 16777216 (2 : Nat)).getD 0 0 = 2 := by
      rw [getD_of_lt _ _ _ (by rw [List.length_replicate]; omega), List.get_eq_getElem,
        List.getElem_replicate]
    have h3 : (1 : Nat) = 2 := by
      rw [← e1, ← e2, hl]
    omega

end LvShp
